import Mathlib

/-!
Shallow embedding of the entity-to-graph transformation of the
code-to-knowledge-explorer frontend (the `transformDataToGraph` callback of
the KnowledgeGraph component) together with proofs of the specified
properties.

The data model follows `frontend/src/lib/api.ts`; the transformation follows
the component source line by line.  JavaScript strings are Lean `String`s,
`Map<string,string>` is an association list with first-match lookup (so a
later `set` shadows an earlier one, as in JS), and JS truthiness on
`string | null | undefined` fields is modelled explicitly.
-/

/-- `interface ParsedFunction` from api.ts. -/
structure ParsedFunction where
  name : String
  args : List String
  returns : Option String
  docstring : Option String
deriving DecidableEq, Repr

/-- `interface ParsedClass` from api.ts (`ParsedMethod extends ParsedFunction`). -/
structure ParsedClass where
  name : String
  bases : List String
  docstring : Option String
  methods : List ParsedFunction
deriving DecidableEq, Repr

/-- `interface Relationship` from api.ts: every payload field is optional
(`caller?: string | null`, `callee?: string`, ...).  An absent field and a
`null` field behave identically (both falsy), so both are `none`.  The TS
field named `attribute` is called `attr` here (keyword clash); neither it
nor the `type` tag is ever read by the component. -/
structure Relationship where
  caller : Option String := none
  callee : Option String := none
  object : Option String := none
  method : Option String := none
  attr : Option String := none
deriving DecidableEq, Repr

/-- The `relationships` prop: four collections, defaulting to empty. -/
structure Relationships where
  function_calls : List Relationship := []
  class_inheritance : List Relationship := []
  method_calls : List Relationship := []
  attribute_access : List Relationship := []
deriving DecidableEq, Repr

/-- `interface NodeData`: `name` plus five optional fields.  A function
payload sets `args`/`returns`/`docstring`, a class payload sets
`bases`/`docstring`/`methods`; `returns` and `docstring` can be present yet
`null`, hence the nested options. -/
structure NodeData where
  name : String
  args : Option (List String) := none
  returns : Option (Option String) := none
  docstring : Option (Option String) := none
  bases : Option (List String) := none
  methods : Option (List ParsedFunction) := none
deriving DecidableEq, Repr

inductive NodeType where
  | function
  | class_
  | method
deriving DecidableEq, Repr

/-- `interface GraphNode` (the `data` record). -/
structure GraphNode where
  id : String
  label : String
  type : NodeType
  nodeData : NodeData
deriving DecidableEq, Repr

inductive EdgeType where
  | calls
  | inherits
  | contains
deriving DecidableEq, Repr

/-- `interface GraphEdge` (the `data` record). -/
structure GraphEdge where
  id : String
  source : String
  target : String
  type : EdgeType
deriving DecidableEq, Repr

/-- The component's four visibility toggles. -/
structure Flags where
  showFunctions : Bool
  showClasses : Bool
  showMethods : Bool
  showRelationships : Bool
deriving DecidableEq, Repr

/-- `new Map<string, string>()` (name -> nodeId): association list where a
`set` prepends and lookup takes the first hit, i.e. the latest `set` wins. -/
abbrev NodeMap := List (String × String)

def mapSet (m : NodeMap) (k v : String) : NodeMap := (k, v) :: m

def mapGet (m : NodeMap) (k : String) : Option String :=
  (m.find? (fun p => p.1 == k)).map (fun p => p.2)

def mapHas (m : NodeMap) (k : String) : Bool := (mapGet m k).isSome

/-- `charsBegins p l` : the list `l` starts with `p`. -/
def charsBegins : List Char → List Char → Bool
  | [], _ => true
  | _ :: _, [] => false
  | a :: ps, b :: l => a == b && charsBegins ps l

/-- `charsHas sub l` : `sub` occurs contiguously inside `l`
(JS `String.prototype.includes`). -/
def charsHas (sub : List Char) : List Char → Bool
  | [] => charsBegins sub []
  | l@(_ :: t) => charsBegins sub l || charsHas sub t

/-- JS `haystack.includes(needle)`. -/
def strIncludes (hay needle : String) : Bool := charsHas needle.data hay.data

/-- `s` starts with `p`. -/
def strBegins (s p : String) : Bool := charsBegins p.data s.data

/-- JS falsiness of a string: empty. -/
def strEmpty (s : String) : Bool := s.data.isEmpty

/-- Per-character lower-casing, modelling JS `toLowerCase` on the
identifier-like names this component handles. -/
def strLower (s : String) : String := ⟨s.data.map Char.toLower⟩

/-- The search predicate used for every entity kind:
`!searchTerm || name.toLowerCase().includes(searchTerm.toLowerCase())`. -/
def passesSearch (searchTerm name : String) : Bool :=
  strEmpty searchTerm || strIncludes (strLower name) (strLower searchTerm)

/-- `nodeMap.get(base) || fallback` : JS `||` falls through on `undefined`
and on the empty string. -/
def jsOrElse (a : Option String) (fallback : String) : String :=
  match a with
  | some s => if strEmpty s then fallback else s
  | none => fallback

/-- Node ids, verbatim from the template literals in the component. -/
def funcId (i : Nat) : String := "func-" ++ toString i

def classId (i : Nat) : String := "class-" ++ toString i

def methodId (i j : Nat) : String := "method-" ++ toString i ++ "-" ++ toString j

def ParsedFunction.toNodeData (f : ParsedFunction) : NodeData :=
  { name := f.name, args := some f.args, returns := some f.returns,
    docstring := some f.docstring }

def ParsedClass.toNodeData (c : ParsedClass) : NodeData :=
  { name := c.name, bases := some c.bases, docstring := some c.docstring,
    methods := some c.methods }

/-- Payload of a synthetic base stub:
`{ name: base, bases: [], docstring: null, methods: [] }`. -/
def stubNodeData (base : String) : NodeData :=
  { name := base, bases := some [], docstring := some none, methods := some [] }

def funcNode (i : Nat) (f : ParsedFunction) : GraphNode :=
  { id := funcId i, label := f.name, type := .function, nodeData := f.toNodeData }

def classNode (i : Nat) (c : ParsedClass) : GraphNode :=
  { id := classId i, label := c.name, type := .class_, nodeData := c.toNodeData }

def methodNode (i j : Nat) (m : ParsedFunction) : GraphNode :=
  { id := methodId i j, label := m.name, type := .method, nodeData := m.toNodeData }

/-- The synthetic stub node pushed for an unresolved base; its id is the
`baseId` computed at the push site. -/
def stubNode (base bid : String) : GraphNode :=
  { id := bid, label := base, type := .class_, nodeData := stubNodeData base }

/-- Mutable state of the `transformDataToGraph` body: the `nodes` and
`edges` arrays (pushed at the back) and the `nodeMap` registry. -/
structure BuildState where
  nodes : List GraphNode
  edges : List GraphEdge
  nodeMap : NodeMap
deriving DecidableEq, Repr

/-- `functions.forEach((func, index) => ...)` : add a function node and
register `name -> id` whenever the search filter passes. -/
def addFunctions (searchTerm : String) : Nat → List ParsedFunction → BuildState → BuildState
  | _, [], st => st
  | i, f :: fs, st =>
    let st' :=
      if passesSearch searchTerm f.name then
        { st with
          nodes := st.nodes ++ [funcNode i f],
          nodeMap := mapSet st.nodeMap f.name (funcId i) }
      else st
    addFunctions searchTerm (i + 1) fs st'

/-- `contains` edge `{ id: edge-{classId}-{methodId}, source: classId,
target: methodId }`. -/
def containsEdge (cid : String) (ci j : Nat) : GraphEdge :=
  { id := "edge-" ++ cid ++ "-" ++ methodId ci j, source := cid,
    target := methodId ci j, type := .contains }

/-- `inherits` edge `{ id: inherit-{classId}-{baseId}-{baseIndex} }`. -/
def inheritsEdge (cid bid : String) (bi : Nat) : GraphEdge :=
  { id := "inherit-" ++ cid ++ "-" ++ bid ++ "-" ++ toString bi, source := cid,
    target := bid, type := .inherits }

/-- `calls` edge `{ id: call-{index} }` from the function-call pass. -/
def callEdge (i : Nat) (crId ceId : String) : GraphEdge :=
  { id := "call-" ++ toString i, source := crId, target := ceId, type := .calls }

/-- `calls` edge `{ id: method-call-{index} }` from the method-call pass. -/
def methodCallEdge (i : Nat) (oid mid : String) : GraphEdge :=
  { id := "method-call-" ++ toString i, source := oid, target := mid, type := .calls }

/-- `cls.methods.forEach((method, methodIndex) => ...)` : add a method node
and a `contains` edge from the owning class.  The registry is not touched. -/
def addMethods (searchTerm cid : String) (ci : Nat) : Nat → List ParsedFunction → BuildState → BuildState
  | _, [], st => st
  | j, m :: ms, st =>
    let st' :=
      if passesSearch searchTerm m.name then
        { st with
          nodes := st.nodes ++ [methodNode ci j m],
          edges := st.edges ++ [containsEdge cid ci j] }
      else st
    addMethods searchTerm cid ci (j + 1) ms st'

/-- `cls.bases.forEach((base, baseIndex) => ...)` : resolve the base id via
the registry with fallback `base-{base}`, push a stub node unless a node
with that id already exists (a linear scan of `nodes`), then always emit an
`inherits` edge. -/
def addBases (cid : String) : Nat → List String → BuildState → BuildState
  | _, [], st => st
  | bi, b :: bs, st =>
    let bid := jsOrElse (mapGet st.nodeMap b) ("base-" ++ b)
    let st1 :=
      if st.nodes.any (fun n => n.id == bid) then st
      else
        { st with
          nodes := st.nodes ++ [stubNode b bid],
          nodeMap := mapSet st.nodeMap b bid }
    let st2 := { st1 with edges := st1.edges ++ [inheritsEdge cid bid bi] }
    addBases cid (bi + 1) bs st2

/-- `classes.forEach((cls, classIndex) => ...)` : class node plus (gated by
`showMethods`) its methods plus (if `bases` is nonempty) inheritance
processing.  Only `showMethods` is read from the flags here. -/
def addClasses (showMethods : Bool) (searchTerm : String) : Nat → List ParsedClass → BuildState → BuildState
  | _, [], st => st
  | i, c :: cs, st =>
    let st' :=
      if passesSearch searchTerm c.name then
        let cid := classId i
        let st1 :=
          { st with
            nodes := st.nodes ++ [classNode i c],
            nodeMap := mapSet st.nodeMap c.name cid }
        let st2 := if showMethods then addMethods searchTerm cid i 0 c.methods st1 else st1
        if c.bases.length > 0 then addBases cid 0 c.bases st2 else st2
      else st
    addClasses showMethods searchTerm (i + 1) cs st'

/-- One iteration of the `function_calls` loop: the emitted edge, if any.
Guards, in source order: `call.callee` truthy and registered; `callerId`
resolved only if `call.caller` is truthy and registered (else `null`);
`callerId && calleeId && callerId !== calleeId`.  The registry is never
mutated by this loop, so it is a plain parameter. -/
def fcEdge (m : NodeMap) (i : Nat) (call : Relationship) : Option GraphEdge :=
  match call.callee with
  | some callee =>
    if !strEmpty callee && mapHas m callee then
      let callerId : Option String :=
        match call.caller with
        | some caller =>
          if !strEmpty caller && mapHas m caller then mapGet m caller else none
        | none => none
      match callerId, mapGet m callee with
      | some crId, some ceId =>
        if !strEmpty crId && !strEmpty ceId && !(crId == ceId) then
          some (callEdge i crId ceId)
        else none
      | _, _ => none
    else none
  | none => none

/-- `relationships.function_calls.forEach((call, index) => ...)`. -/
def addFunctionCalls : Nat → List Relationship → BuildState → BuildState
  | _, [], st => st
  | i, call :: rest, st =>
    addFunctionCalls (i + 1) rest
      { st with edges := st.edges ++ (fcEdge st.nodeMap i call).toList }

/-- One iteration of the `method_calls` loop: `call.object` and
`call.method` truthy, object registered, and the node list contains a
method-kind node whose payload name is `call.method` and whose id contains
`"method-"` (`nodes.find` takes the first, in push order).  Neither `nodes`
nor the registry is mutated by this loop. -/
def mcEdge (nodes : List GraphNode) (m : NodeMap) (i : Nat) (call : Relationship) :
    Option GraphEdge :=
  match call.object, call.method with
  | some obj, some mname =>
    if !strEmpty obj && !strEmpty mname && mapHas m obj then
      let methodNd := nodes.find? (fun n =>
        n.type == NodeType.method && n.nodeData.name == mname &&
          strIncludes n.id "method-")
      match mapGet m obj, methodNd with
      | some oid, some mn =>
        if !strEmpty oid then some (methodCallEdge i oid mn.id) else none
      | _, _ => none
    else none
  | _, _ => none

/-- `relationships.method_calls.forEach((call, index) => ...)`. -/
def addMethodCalls : Nat → List Relationship → BuildState → BuildState
  | _, [], st => st
  | i, call :: rest, st =>
    addMethodCalls (i + 1) rest
      { st with edges := st.edges ++ (mcEdge st.nodes st.nodeMap i call).toList }

/-- The state after the structural part of the build (function nodes, class
nodes, method nodes + `contains` edges, inheritance stubs + `inherits`
edges); `showRelationships` is not consulted here. -/
def structuralState (functions : List ParsedFunction) (classes : List ParsedClass)
    (flags : Flags) (searchTerm : String) : BuildState :=
  let st0 : BuildState := { nodes := [], edges := [], nodeMap := [] }
  let st1 := if flags.showFunctions then addFunctions searchTerm 0 functions st0 else st0
  if flags.showClasses then addClasses flags.showMethods searchTerm 0 classes st1 else st1

/-- The final state: the structural state followed (if `showRelationships`)
by the function-call and method-call edge passes. -/
def finalState (functions : List ParsedFunction) (classes : List ParsedClass)
    (relationships : Relationships) (flags : Flags) (searchTerm : String) : BuildState :=
  let st2 := structuralState functions classes flags searchTerm
  if flags.showRelationships then
    addMethodCalls 0 relationships.method_calls
      (addFunctionCalls 0 relationships.function_calls st2)
  else st2

/-- `transformDataToGraph` : the full graph build, returning
`{ nodes, edges }`. -/
def transformDataToGraph (functions : List ParsedFunction) (classes : List ParsedClass)
    (relationships : Relationships) (flags : Flags) (searchTerm : String) :
    List GraphNode × List GraphEdge :=
  let st := finalState functions classes relationships flags searchTerm
  (st.nodes, st.edges)

/-!  ## Node origins: every node the build can produce -/

/-- A reference to an original entity: a function index, a class index, a
(class, method) index pair, or an unresolved base name. -/
inductive ERef where
  | func (i : Nat)
  | cls (i : Nat)
  | meth (i j : Nat)
  | base (name : String)

/-- The id each entity reference yields, independent of all filter state. -/
def refId : ERef → String
  | .func i => funcId i
  | .cls i => classId i
  | .meth i j => methodId i j
  | .base b => "base-" ++ b

/-- The node that a build may create for an entity reference; it depends
only on the entity model (`fns`, `cls`) and the reference, never on the
filter flags or the search term. -/
def entityNode (fns : List ParsedFunction) (cls : List ParsedClass) : ERef → Option GraphNode
  | .func i => (fns.get? i).map (funcNode i)
  | .cls i => (cls.get? i).map (classNode i)
  | .meth i j => (cls.get? i).bind (fun c => (c.methods.get? j).map (methodNode i j))
  | .base b => some (stubNode b ("base-" ++ b))

/-- The node stems from some original entity. -/
def NodeOrigin (fns : List ParsedFunction) (cls : List ParsedClass) (n : GraphNode) : Prop :=
  ∃ r, entityNode fns cls r = some n

/-- Shape of every value the registry can hold. -/
def IdShape (v : String) : Prop :=
  (∃ s, v = "func-" ++ s) ∨ (∃ s, v = "class-" ++ s) ∨ (∃ s, v = "base-" ++ s)

/-!  ## The build invariant -/

/-- Invariant maintained by every step of the build:
soundness and shape of the registry, provenance of every node, referential
integrity and loop-freedom of every edge, and at-most-one stub per base
name. -/
structure BuildInv (fns : List ParsedFunction) (cls : List ParsedClass) (st : BuildState) : Prop where
  mapSound : ∀ k v, (k, v) ∈ st.nodeMap → ∃ n ∈ st.nodes, n.id = v
  mapShape : ∀ k v, (k, v) ∈ st.nodeMap → IdShape v
  origin : ∀ n ∈ st.nodes, NodeOrigin fns cls n
  edgesClosed : ∀ e ∈ st.edges,
    (∃ n ∈ st.nodes, n.id = e.source) ∧ (∃ n ∈ st.nodes, n.id = e.target)
  noLoop : ∀ e ∈ st.edges, e.type = .calls → ¬ e.source = e.target
  stubOnce : ∀ b : String, st.nodes.countP (fun n => n.id == "base-" ++ b) ≤ 1

/-!  ## Exact descriptions of the pure loops -/

/-- Function nodes contributed by the function loop, one per filter-passing
function, tagged with its original index. -/
def funcNodesFrom (s : String) : Nat → List ParsedFunction → List GraphNode
  | _, [] => []
  | i, f :: fs =>
    (if passesSearch s f.name then [funcNode i f] else []) ++ funcNodesFrom s (i + 1) fs

/-- Class nodes contributed by the class loop (stubs excluded). -/
def classNodesFrom (s : String) : Nat → List ParsedClass → List GraphNode
  | _, [] => []
  | i, c :: cs =>
    (if passesSearch s c.name then [classNode i c] else []) ++ classNodesFrom s (i + 1) cs

/-- Method nodes of class `ci` passing the filter. -/
def methodNodesOf (s : String) (ci : Nat) : Nat → List ParsedFunction → List GraphNode
  | _, [] => []
  | j, m :: ms =>
    (if passesSearch s m.name then [methodNode ci j m] else []) ++ methodNodesOf s ci (j + 1) ms

/-- `contains` edges of class `ci` for its filter-passing methods. -/
def containsEdgesOf (s cid : String) (ci : Nat) : Nat → List ParsedFunction → List GraphEdge
  | _, [] => []
  | j, m :: ms =>
    (if passesSearch s m.name then [containsEdge cid ci j] else []) ++
      containsEdgesOf s cid ci (j + 1) ms

/-- All `contains` edges of a build over the class list. -/
def containsFrom (sm : Bool) (s : String) : Nat → List ParsedClass → List GraphEdge
  | _, [] => []
  | i, c :: cs =>
    (if passesSearch s c.name then
       (if sm then containsEdgesOf s (classId i) i 0 c.methods else [])
     else []) ++ containsFrom sm s (i + 1) cs

/-- All `calls` edges contributed by the function-call pass. -/
def fcEdges (m : NodeMap) : Nat → List Relationship → List GraphEdge
  | _, [] => []
  | i, c :: rest => (fcEdge m i c).toList ++ fcEdges m (i + 1) rest

/-- All `calls` edges contributed by the method-call pass. -/
def mcEdges (nodes : List GraphNode) (m : NodeMap) : Nat → List Relationship → List GraphEdge
  | _, [] => []
  | i, c :: rest => (mcEdge nodes m i c).toList ++ mcEdges nodes m (i + 1) rest

/-!  ## Concrete fixtures -/

def fxF : ParsedFunction := ⟨"f", [], none, none⟩

def fxG : ParsedFunction := ⟨"g", [], none, none⟩

def allFlags : Flags := ⟨true, true, true, true⟩

/-- `function_calls: [{caller: "f", callee: "g"}]`. -/
def fxRels : Relationships := { function_calls := [{ caller := some "f", callee := some "g" }] }

/-- One class `B` inheriting from an unparsed base `A`. -/
def cexClass : ParsedClass := ⟨"B", ["A"], none, []⟩

/-- One class `Child` with `bases: ["Unknown"]` and no class named `Unknown`. -/
def stubScenarioClass : ParsedClass := ⟨"Child", ["Unknown"], none, []⟩

/-- The classes visible under the `showClasses` flag and the search term. -/
def visibleClasses (sc : Bool) (s : String) (cls : List ParsedClass) : List ParsedClass :=
  if sc then cls.filter (fun c => passesSearch s c.name) else []

/-!  ## Generic helper lemmas -/

theorem charsBegins_self_append (l t : List Char) : charsBegins l (l ++ t) = true := by
  induction l with
  | nil => rfl
  | cons a ps ih => simp [charsBegins, ih]

theorem strBegins_append (p s : String) : strBegins (p ++ s) p = true := by
  simpa [strBegins, String.data_append] using charsBegins_self_append p.data s.data

theorem str_append_inj {p a b : String} (h : p ++ a = p ++ b) : a = b := by
  have hd := congrArg String.data h
  simp only [String.data_append] at hd
  exact String.ext (List.append_cancel_left hd)

/-- Two strings with distinct first characters differ. -/
theorem str_head_ne (c d : Char) {a b : String} (ha : a.data.head? = some c)
    (hb : b.data.head? = some d) (h : ¬ c = d) : ¬ a = b := by
  intro e
  rw [e, hb] at ha
  exact h (Option.some.inj ha).symm

theorem mapGet_mem {m : NodeMap} {k v : String} (h : mapGet m k = some v) : (k, v) ∈ m := by
  unfold mapGet at h
  cases hf : m.find? (fun p => p.1 == k) with
  | none => rw [hf] at h; simp at h
  | some p =>
    rw [hf] at h
    simp only [Option.map_some'] at h
    have hp := List.find?_some hf
    have hmem := List.mem_of_find?_eq_some hf
    have h1 : p.1 = k := by simpa using hp
    have : p = (k, v) := by
      cases p
      simp_all
    rwa [this] at hmem

theorem mapHas_get {m : NodeMap} {k : String} (h : mapHas m k = true) :
    ∃ v, mapGet m k = some v := by
  unfold mapHas at h
  exact Option.isSome_iff_exists.mp h

theorem entityNode_id {fns : List ParsedFunction} {cls : List ParsedClass} {r : ERef}
    {n : GraphNode} (h : entityNode fns cls r = some n) : n.id = refId r := by
  cases r with
  | func i =>
    simp only [entityNode, Option.map_eq_some'] at h
    obtain ⟨f, -, rfl⟩ := h
    rfl
  | cls i =>
    simp only [entityNode, Option.map_eq_some'] at h
    obtain ⟨c, -, rfl⟩ := h
    rfl
  | meth i j =>
    simp only [entityNode, Option.bind_eq_some, Option.map_eq_some'] at h
    obtain ⟨c, -, m, -, rfl⟩ := h
    rfl
  | base b =>
    simp only [entityNode, Option.some.injEq] at h
    subst h
    rfl

/-!  ## Id shape disambiguation -/

theorem funcId_ne_base (i : Nat) (b : String) : ¬ funcId i = "base-" ++ b :=
  str_head_ne 'f' 'b' rfl rfl (by decide)

theorem classId_ne_base (i : Nat) (b : String) : ¬ classId i = "base-" ++ b :=
  str_head_ne 'c' 'b' rfl rfl (by decide)

theorem methodId_ne_base (i j : Nat) (b : String) : ¬ methodId i j = "base-" ++ b :=
  str_head_ne 'm' 'b' rfl rfl (by decide)

theorem IdShape_ne_methodId {v : String} (h : IdShape v) (i j : Nat) :
    ¬ v = methodId i j := by
  rcases h with ⟨s, rfl⟩ | ⟨s, rfl⟩ | ⟨s, rfl⟩
  · exact str_head_ne 'f' 'm' rfl rfl (by decide)
  · exact str_head_ne 'c' 'm' rfl rfl (by decide)
  · exact str_head_ne 'b' 'm' rfl rfl (by decide)

theorem IdShape_not_empty {v : String} (h : IdShape v) : strEmpty v = false := by
  rcases h with ⟨s, rfl⟩ | ⟨s, rfl⟩ | ⟨s, rfl⟩ <;> rfl

theorem strBegins_funcId_class (i : Nat) : strBegins (funcId i) "class-" = false := rfl

theorem strBegins_methodId_class (i j : Nat) : strBegins (methodId i j) "class-" = false := rfl

theorem strBegins_base_class (b : String) : strBegins ("base-" ++ b) "class-" = false := rfl

theorem strBegins_classId_class (i : Nat) : strBegins (classId i) "class-" = true :=
  strBegins_append "class-" (toString i)

theorem inv_empty (fns : List ParsedFunction) (cls : List ParsedClass) :
    BuildInv fns cls { nodes := [], edges := [], nodeMap := [] } where
  mapSound := by simp
  mapShape := by simp
  origin := by simp
  edgesClosed := by simp
  noLoop := by simp
  stubOnce := by simp

/-- Pushing a node whose id is not of stub shape, with no new edges, keeps
`stubOnce`. -/
theorem countP_push_nonstub {nodes : List GraphNode} {x : GraphNode}
    (hx : ∀ b : String, ¬ x.id = "base-" ++ b)
    (h : ∀ b : String, nodes.countP (fun n => n.id == "base-" ++ b) ≤ 1) :
    ∀ b : String, (nodes ++ [x]).countP (fun n => n.id == "base-" ++ b) ≤ 1 := by
  intro b
  rw [List.countP_append]
  have hxb : (x.id == "base-" ++ b) = false := by
    simpa using hx b
  simpa [List.countP_cons, hxb] using h b

theorem inv_push_func {fns : List ParsedFunction} {cls : List ParsedClass}
    {st : BuildState} (hI : BuildInv fns cls st) {i : Nat} {f : ParsedFunction}
    (hget : fns.get? i = some f) :
    BuildInv fns cls
      { st with nodes := st.nodes ++ [funcNode i f],
                nodeMap := mapSet st.nodeMap f.name (funcId i) } where
  mapSound k v hm := by
    rcases List.mem_cons.mp hm with he | hm'
    · obtain ⟨-, rfl⟩ := Prod.mk.injEq .. ▸ he
      exact ⟨funcNode i f, List.mem_append.mpr (Or.inr (by simp)), rfl⟩
    · obtain ⟨n, hn, hid⟩ := hI.mapSound k v hm'
      exact ⟨n, List.mem_append.mpr (Or.inl hn), hid⟩
  mapShape k v hm := by
    rcases List.mem_cons.mp hm with he | hm'
    · obtain ⟨-, rfl⟩ := Prod.mk.injEq .. ▸ he
      exact Or.inl ⟨toString i, rfl⟩
    · exact hI.mapShape k v hm'
  origin n hn := by
    rcases List.mem_append.mp hn with hn' | hn'
    · exact hI.origin n hn'
    · have : n = funcNode i f := by simpa using hn'
      refine ⟨.func i, ?_⟩
      rw [this]
      simp only [entityNode]
      rw [hget]
      rfl
  edgesClosed e he := by
    obtain ⟨⟨n1, hn1, h1⟩, ⟨n2, hn2, h2⟩⟩ := hI.edgesClosed e he
    exact ⟨⟨n1, List.mem_append.mpr (Or.inl hn1), h1⟩,
           ⟨n2, List.mem_append.mpr (Or.inl hn2), h2⟩⟩
  noLoop := hI.noLoop
  stubOnce := countP_push_nonstub (fun b => funcId_ne_base i b) hI.stubOnce

theorem inv_push_class {fns : List ParsedFunction} {cls : List ParsedClass}
    {st : BuildState} (hI : BuildInv fns cls st) {i : Nat} {c : ParsedClass}
    (hget : cls.get? i = some c) :
    BuildInv fns cls
      { st with nodes := st.nodes ++ [classNode i c],
                nodeMap := mapSet st.nodeMap c.name (classId i) } where
  mapSound k v hm := by
    rcases List.mem_cons.mp hm with he | hm'
    · obtain ⟨-, rfl⟩ := Prod.mk.injEq .. ▸ he
      exact ⟨classNode i c, List.mem_append.mpr (Or.inr (by simp)), rfl⟩
    · obtain ⟨n, hn, hid⟩ := hI.mapSound k v hm'
      exact ⟨n, List.mem_append.mpr (Or.inl hn), hid⟩
  mapShape k v hm := by
    rcases List.mem_cons.mp hm with he | hm'
    · obtain ⟨-, rfl⟩ := Prod.mk.injEq .. ▸ he
      exact Or.inr (Or.inl ⟨toString i, rfl⟩)
    · exact hI.mapShape k v hm'
  origin n hn := by
    rcases List.mem_append.mp hn with hn' | hn'
    · exact hI.origin n hn'
    · have : n = classNode i c := by simpa using hn'
      refine ⟨.cls i, ?_⟩
      rw [this]
      simp only [entityNode]
      rw [hget]
      rfl
  edgesClosed e he := by
    obtain ⟨⟨n1, hn1, h1⟩, ⟨n2, hn2, h2⟩⟩ := hI.edgesClosed e he
    exact ⟨⟨n1, List.mem_append.mpr (Or.inl hn1), h1⟩,
           ⟨n2, List.mem_append.mpr (Or.inl hn2), h2⟩⟩
  noLoop := hI.noLoop
  stubOnce := countP_push_nonstub (fun b => classId_ne_base i b) hI.stubOnce

theorem inv_push_method {fns : List ParsedFunction} {cls : List ParsedClass}
    {st : BuildState} (hI : BuildInv fns cls st) {ci j : Nat} {c : ParsedClass}
    {m : ParsedFunction} {cid : String}
    (hgetc : cls.get? ci = some c) (hgetm : c.methods.get? j = some m)
    (hcid : ∃ n ∈ st.nodes, n.id = cid) :
    BuildInv fns cls
      { st with nodes := st.nodes ++ [methodNode ci j m],
                edges := st.edges ++ [containsEdge cid ci j] } where
  mapSound k v hm := by
    obtain ⟨n, hn, hid⟩ := hI.mapSound k v hm
    exact ⟨n, List.mem_append.mpr (Or.inl hn), hid⟩
  mapShape := hI.mapShape
  origin n hn := by
    rcases List.mem_append.mp hn with hn' | hn'
    · exact hI.origin n hn'
    · have : n = methodNode ci j m := by simpa using hn'
      refine ⟨.meth ci j, ?_⟩
      rw [this]
      simp only [entityNode]
      rw [hgetc]
      simp only [Option.some_bind]
      rw [hgetm]
      rfl
  edgesClosed e he := by
    rcases List.mem_append.mp he with he' | he'
    · obtain ⟨⟨n1, hn1, h1⟩, ⟨n2, hn2, h2⟩⟩ := hI.edgesClosed e he'
      exact ⟨⟨n1, List.mem_append.mpr (Or.inl hn1), h1⟩,
             ⟨n2, List.mem_append.mpr (Or.inl hn2), h2⟩⟩
    · have : e = containsEdge cid ci j := by simpa using he'
      subst this
      obtain ⟨n0, hn0, h0⟩ := hcid
      exact ⟨⟨n0, List.mem_append.mpr (Or.inl hn0), h0⟩,
             ⟨methodNode ci j m, List.mem_append.mpr (Or.inr (by simp)), rfl⟩⟩
  noLoop e he ht := by
    rcases List.mem_append.mp he with he' | he'
    · exact hI.noLoop e he' ht
    · have : e = containsEdge cid ci j := by simpa using he'
      subst this
      simp [containsEdge] at ht
  stubOnce := countP_push_nonstub (fun b => methodId_ne_base ci j b) hI.stubOnce

theorem addFunctions_spec (fns : List ParsedFunction) (cls : List ParsedClass) (s : String) :
    ∀ (l : List ParsedFunction) (i : Nat) (st : BuildState),
      (∀ k, l.get? k = fns.get? (i + k)) → BuildInv fns cls st →
      (∃ dm, addFunctions s i l st =
          { nodes := st.nodes ++ funcNodesFrom s i l, edges := st.edges,
            nodeMap := dm ++ st.nodeMap })
        ∧ BuildInv fns cls (addFunctions s i l st) := by
  intro l
  induction l with
  | nil =>
    intro i st hk hI
    exact ⟨⟨[], by simp [addFunctions, funcNodesFrom]⟩, by simpa [addFunctions] using hI⟩
  | cons f fs ih =>
    intro i st hk hI
    have hget : fns.get? i = some f := by simpa using (hk 0).symm
    have hk' : ∀ k, fs.get? k = fns.get? (i + 1 + k) := by
      intro k
      have h := hk (k + 1)
      simp only [List.get?_cons_succ] at h
      rw [h]
      congr 1
      omega
    cases hp : passesSearch s f.name with
    | true =>
      have hI' := inv_push_func hI hget
      obtain ⟨⟨dm, heq⟩, hI''⟩ := ih (i + 1) _ hk' hI'
      constructor
      · refine ⟨dm ++ [(f.name, funcId i)], ?_⟩
        simp only [addFunctions, hp, if_true]
        rw [heq]
        simp [funcNodesFrom, hp, mapSet, List.append_assoc]
      · simpa [addFunctions, hp] using hI''
    | false =>
      obtain ⟨⟨dm, heq⟩, hI''⟩ := ih (i + 1) st hk' hI
      constructor
      · refine ⟨dm, ?_⟩
        simp only [addFunctions, hp, Bool.false_eq_true, if_false]
        rw [heq]
        simp [funcNodesFrom, hp]
      · simpa [addFunctions, hp] using hI''

theorem addMethods_spec (fns : List ParsedFunction) (cls : List ParsedClass)
    (s cid : String) (ci : Nat) (c : ParsedClass) (hgetc : cls.get? ci = some c) :
    ∀ (l : List ParsedFunction) (j : Nat) (st : BuildState),
      (∀ k, l.get? k = c.methods.get? (j + k)) → BuildInv fns cls st →
      (∃ n ∈ st.nodes, n.id = cid) →
      addMethods s cid ci j l st =
        { nodes := st.nodes ++ methodNodesOf s ci j l,
          edges := st.edges ++ containsEdgesOf s cid ci j l,
          nodeMap := st.nodeMap }
        ∧ BuildInv fns cls (addMethods s cid ci j l st) := by
  intro l
  induction l with
  | nil =>
    intro j st hk hI hcid
    exact ⟨by simp [addMethods, methodNodesOf, containsEdgesOf],
           by simpa [addMethods] using hI⟩
  | cons m ms ih =>
    intro j st hk hI hcid
    have hgetm : c.methods.get? j = some m := by simpa using (hk 0).symm
    have hk' : ∀ k, ms.get? k = c.methods.get? (j + 1 + k) := by
      intro k
      have h := hk (k + 1)
      simp only [List.get?_cons_succ] at h
      rw [h]
      congr 1
      omega
    cases hp : passesSearch s m.name with
    | true =>
      have hI' := inv_push_method hI hgetc hgetm hcid
      have hcid' : ∃ n ∈ (st.nodes ++ [methodNode ci j m]), n.id = cid := by
        obtain ⟨n0, hn0, h0⟩ := hcid
        exact ⟨n0, List.mem_append.mpr (Or.inl hn0), h0⟩
      obtain ⟨heq, hI''⟩ := ih (j + 1) _ hk' hI' hcid'
      constructor
      · simp only [addMethods, hp, if_true]
        rw [heq]
        simp [methodNodesOf, containsEdgesOf, hp, List.append_assoc]
      · simpa [addMethods, hp] using hI''
    | false =>
      obtain ⟨heq, hI''⟩ := ih (j + 1) st hk' hI hcid
      constructor
      · simp only [addMethods, hp, Bool.false_eq_true, if_false]
        rw [heq]
        simp [methodNodesOf, containsEdgesOf, hp]
      · simpa [addMethods, hp] using hI''

theorem stubOnce_push_stub {nodes : List GraphNode} {b : String}
    (hg : nodes.any (fun n => n.id == "base-" ++ b) = false)
    (h : ∀ b' : String, nodes.countP (fun n => n.id == "base-" ++ b') ≤ 1) :
    ∀ b' : String,
      (nodes ++ [stubNode b ("base-" ++ b)]).countP (fun n => n.id == "base-" ++ b') ≤ 1 := by
  intro b'
  rw [List.countP_append]
  by_cases hbb : b = b'
  · subst hbb
    have hzero : nodes.countP (fun n => n.id == "base-" ++ b) = 0 := by
      rw [List.countP_eq_zero]
      intro n hn
      exact (List.any_eq_false.mp hg) n hn
    simp [hzero, List.countP_cons, stubNode]
  · have hne : ((stubNode b ("base-" ++ b)).id == "base-" ++ b') = false := by
      refine beq_eq_false_iff_ne.mpr ?_
      simp only [stubNode]
      intro he
      exact hbb (str_append_inj he)
    simpa [List.countP_cons, hne] using h b'

/-- Pushing only an edge (any state with the same nodes and registry) keeps
the node-related invariant fields; closure and loop-freedom of the new edge
are supplied as hypotheses. -/
theorem inv_push_edge {fns : List ParsedFunction} {cls : List ParsedClass}
    {st : BuildState} (hI : BuildInv fns cls st) {e : GraphEdge}
    (hsrc : ∃ n ∈ st.nodes, n.id = e.source)
    (htgt : ∃ n ∈ st.nodes, n.id = e.target)
    (hloop : e.type = .calls → ¬ e.source = e.target) :
    BuildInv fns cls { st with edges := st.edges ++ [e] } where
  mapSound := hI.mapSound
  mapShape := hI.mapShape
  origin := hI.origin
  edgesClosed e' he' := by
    rcases List.mem_append.mp he' with h' | h'
    · exact hI.edgesClosed e' h'
    · have : e' = e := by simpa using h'
      subst this
      exact ⟨hsrc, htgt⟩
  noLoop e' he' ht := by
    rcases List.mem_append.mp he' with h' | h'
    · exact hI.noLoop e' h' ht
    · have : e' = e := by simpa using h'
      subst this
      exact hloop ht
  stubOnce := hI.stubOnce

theorem inv_push_stub {fns : List ParsedFunction} {cls : List ParsedClass}
    {st : BuildState} (hI : BuildInv fns cls st) {b : String}
    (hg : st.nodes.any (fun n => n.id == "base-" ++ b) = false) :
    BuildInv fns cls
      { st with nodes := st.nodes ++ [stubNode b ("base-" ++ b)],
                nodeMap := mapSet st.nodeMap b ("base-" ++ b) } where
  mapSound k v hm := by
    rcases List.mem_cons.mp hm with he | hm'
    · obtain ⟨-, rfl⟩ := Prod.mk.injEq .. ▸ he
      exact ⟨stubNode b ("base-" ++ b), List.mem_append.mpr (Or.inr (by simp)), rfl⟩
    · obtain ⟨n, hn, hid⟩ := hI.mapSound k v hm'
      exact ⟨n, List.mem_append.mpr (Or.inl hn), hid⟩
  mapShape k v hm := by
    rcases List.mem_cons.mp hm with he | hm'
    · obtain ⟨-, rfl⟩ := Prod.mk.injEq .. ▸ he
      exact Or.inr (Or.inr ⟨b, rfl⟩)
    · exact hI.mapShape k v hm'
  origin n hn := by
    rcases List.mem_append.mp hn with hn' | hn'
    · exact hI.origin n hn'
    · have : n = stubNode b ("base-" ++ b) := by simpa using hn'
      exact ⟨.base b, by rw [this]; rfl⟩
  edgesClosed e he := by
    obtain ⟨⟨n1, hn1, h1⟩, ⟨n2, hn2, h2⟩⟩ := hI.edgesClosed e he
    exact ⟨⟨n1, List.mem_append.mpr (Or.inl hn1), h1⟩,
           ⟨n2, List.mem_append.mpr (Or.inl hn2), h2⟩⟩
  noLoop := hI.noLoop
  stubOnce := stubOnce_push_stub hg hI.stubOnce

theorem addBases_spec (fns : List ParsedFunction) (cls : List ParsedClass) (cid : String) :
    ∀ (l : List String) (bi : Nat) (st : BuildState),
      BuildInv fns cls st → (∃ n ∈ st.nodes, n.id = cid) →
      (∃ dn de dm, addBases cid bi l st =
          { nodes := st.nodes ++ dn, edges := st.edges ++ de,
            nodeMap := dm ++ st.nodeMap }
        ∧ (∀ n ∈ dn, ∃ b, n = stubNode b ("base-" ++ b))
        ∧ (∀ e ∈ de, e.type = .inherits))
      ∧ BuildInv fns cls (addBases cid bi l st) := by
  intro l
  induction l with
  | nil =>
    intro bi st hI hcid
    exact ⟨⟨[], [], [], by simp [addBases], by simp, by simp⟩,
           by simpa [addBases] using hI⟩
  | cons b bs ih =>
    intro bi st hI hcid
    cases hmg : mapGet st.nodeMap b with
    | some v =>
      have hshape : IdShape v := hI.mapShape b v (mapGet_mem hmg)
      have hnev : strEmpty v = false := IdShape_not_empty hshape
      have hbid : jsOrElse (mapGet st.nodeMap b) ("base-" ++ b) = v := by
        simp [jsOrElse, hmg, hnev]
      have hnode : ∃ n ∈ st.nodes, n.id = v := hI.mapSound b v (mapGet_mem hmg)
      have hg : st.nodes.any (fun n => n.id == v) = true := by
        obtain ⟨n, hn, hid⟩ := hnode
        exact List.any_eq_true.mpr ⟨n, hn, by simp [hid]⟩
      have hstep : addBases cid bi (b :: bs) st =
          addBases cid (bi + 1) bs
            { st with edges := st.edges ++ [inheritsEdge cid v bi] } := by
        simp only [addBases, hbid, hg, if_true]
      have hI2 : BuildInv fns cls
          { st with edges := st.edges ++ [inheritsEdge cid v bi] } :=
        inv_push_edge hI hcid hnode (by simp [inheritsEdge])
      obtain ⟨⟨dn, de, dm, heq, hdn, hde⟩, hIfin⟩ := ih (bi + 1) _ hI2 hcid
      refine ⟨⟨dn, inheritsEdge cid v bi :: de, dm, ?_, hdn, ?_⟩, ?_⟩
      · rw [hstep, heq]
        simp [List.append_assoc]
      · intro e he
        rcases List.mem_cons.mp he with rfl | he'
        · rfl
        · exact hde e he'
      · rw [hstep]
        exact hIfin
    | none =>
      have hbid : jsOrElse (mapGet st.nodeMap b) ("base-" ++ b) = "base-" ++ b := by
        simp [jsOrElse, hmg]
      cases hg : st.nodes.any (fun n => n.id == "base-" ++ b) with
      | true =>
        have hnode : ∃ n ∈ st.nodes, n.id = "base-" ++ b := by
          obtain ⟨n, hn, hp⟩ := List.any_eq_true.mp hg
          exact ⟨n, hn, by simpa using hp⟩
        have hstep : addBases cid bi (b :: bs) st =
            addBases cid (bi + 1) bs
              { st with edges := st.edges ++ [inheritsEdge cid ("base-" ++ b) bi] } := by
          simp only [addBases, hbid, hg, if_true]
        have hI2 : BuildInv fns cls
            { st with edges := st.edges ++ [inheritsEdge cid ("base-" ++ b) bi] } :=
          inv_push_edge hI hcid hnode (by simp [inheritsEdge])
        obtain ⟨⟨dn, de, dm, heq, hdn, hde⟩, hIfin⟩ := ih (bi + 1) _ hI2 hcid
        refine ⟨⟨dn, inheritsEdge cid ("base-" ++ b) bi :: de, dm, ?_, hdn, ?_⟩, ?_⟩
        · rw [hstep, heq]
          simp [List.append_assoc]
        · intro e he
          rcases List.mem_cons.mp he with rfl | he'
          · rfl
          · exact hde e he'
        · rw [hstep]
          exact hIfin
      | false =>
        have hstep : addBases cid bi (b :: bs) st =
            addBases cid (bi + 1) bs
              { nodes := st.nodes ++ [stubNode b ("base-" ++ b)],
                edges := st.edges ++ [inheritsEdge cid ("base-" ++ b) bi],
                nodeMap := mapSet st.nodeMap b ("base-" ++ b) } := by
          simp only [addBases, hbid, hg, Bool.false_eq_true, if_false]
        have hI1 : BuildInv fns cls
            { st with nodes := st.nodes ++ [stubNode b ("base-" ++ b)],
                      nodeMap := mapSet st.nodeMap b ("base-" ++ b) } :=
          inv_push_stub hI hg
        have hcid1 : ∃ n ∈ (st.nodes ++ [stubNode b ("base-" ++ b)]), n.id = cid := by
          obtain ⟨n0, hn0, h0⟩ := hcid
          exact ⟨n0, List.mem_append.mpr (Or.inl hn0), h0⟩
        have hI2 : BuildInv fns cls
            { nodes := st.nodes ++ [stubNode b ("base-" ++ b)],
              edges := st.edges ++ [inheritsEdge cid ("base-" ++ b) bi],
              nodeMap := mapSet st.nodeMap b ("base-" ++ b) } :=
          inv_push_edge hI1 hcid1
            ⟨stubNode b ("base-" ++ b), List.mem_append.mpr (Or.inr (by simp)), rfl⟩
            (by simp [inheritsEdge])
        obtain ⟨⟨dn, de, dm, heq, hdn, hde⟩, hIfin⟩ := ih (bi + 1) _ hI2 hcid1
        refine ⟨⟨stubNode b ("base-" ++ b) :: dn,
                 inheritsEdge cid ("base-" ++ b) bi :: de,
                 dm ++ [(b, "base-" ++ b)], ?_, ?_, ?_⟩, ?_⟩
        · rw [hstep, heq]
          simp [mapSet, List.append_assoc]
        · intro n hn
          rcases List.mem_cons.mp hn with rfl | hn'
          · exact ⟨b, rfl⟩
          · exact hdn n hn'
        · intro e he
          rcases List.mem_cons.mp he with rfl | he'
          · rfl
          · exact hde e he'
        · rw [hstep]
          exact hIfin

theorem funcNodesFrom_class_filter (s : String) :
    ∀ (i : Nat) (l : List ParsedFunction),
      (funcNodesFrom s i l).filter (fun n => strBegins n.id "class-") = [] := by
  intro i l
  induction l generalizing i with
  | nil => simp [funcNodesFrom]
  | cons f fs ih =>
    cases hp : passesSearch s f.name with
    | true => simp [funcNodesFrom, hp, funcNode, strBegins_funcId_class, ih]
    | false => simp [funcNodesFrom, hp, ih]

theorem funcNodesFrom_types (s : String) :
    ∀ (i : Nat) (l : List ParsedFunction) (n : GraphNode),
      n ∈ funcNodesFrom s i l → ∃ k f, n = funcNode k f := by
  intro i l
  induction l generalizing i with
  | nil => simp [funcNodesFrom]
  | cons f fs ih =>
    intro n hn
    cases hp : passesSearch s f.name with
    | true =>
      rw [funcNodesFrom, hp] at hn
      rcases List.mem_append.mp hn with h | h
      · exact ⟨i, f, by simpa using h⟩
      · exact ih (i + 1) n h
    | false =>
      rw [funcNodesFrom, hp] at hn
      simp only [Bool.false_eq_true, if_false, List.nil_append] at hn
      exact ih (i + 1) n hn

theorem methodNodesOf_mem (s : String) (ci : Nat) :
    ∀ (j : Nat) (l : List ParsedFunction) (n : GraphNode),
      n ∈ methodNodesOf s ci j l → ∃ k m, n = methodNode ci k m := by
  intro j l
  induction l generalizing j with
  | nil => simp [methodNodesOf]
  | cons m ms ih =>
    intro n hn
    cases hp : passesSearch s m.name with
    | true =>
      rw [methodNodesOf, hp] at hn
      rcases List.mem_append.mp hn with h | h
      · exact ⟨j, m, by simpa using h⟩
      · exact ih (j + 1) n h
    | false =>
      rw [methodNodesOf, hp] at hn
      simp only [Bool.false_eq_true, if_false, List.nil_append] at hn
      exact ih (j + 1) n hn

theorem methodNodesOf_class_filter (s : String) (ci : Nat) :
    ∀ (j : Nat) (l : List ParsedFunction),
      (methodNodesOf s ci j l).filter (fun n => strBegins n.id "class-") = [] := by
  intro j l
  induction l generalizing j with
  | nil => simp [methodNodesOf]
  | cons m ms ih =>
    cases hp : passesSearch s m.name with
    | true => simp [methodNodesOf, hp, methodNode, strBegins_methodId_class, ih]
    | false => simp [methodNodesOf, hp, ih]

theorem containsEdgesOf_types (s cid : String) (ci : Nat) :
    ∀ (j : Nat) (l : List ParsedFunction) (e : GraphEdge),
      e ∈ containsEdgesOf s cid ci j l → e.type = .contains := by
  intro j l
  induction l generalizing j with
  | nil => simp [containsEdgesOf]
  | cons m ms ih =>
    intro e he
    cases hp : passesSearch s m.name with
    | true =>
      rw [containsEdgesOf, hp] at he
      rcases List.mem_append.mp he with h | h
      · have : e = containsEdge cid ci j := by simpa using h
        rw [this]
        rfl
      · exact ih (j + 1) e h
    | false =>
      rw [containsEdgesOf, hp] at he
      simp only [Bool.false_eq_true, if_false, List.nil_append] at he
      exact ih (j + 1) e he

theorem containsEdgesOf_self_filter (s cid : String) (ci : Nat) (j : Nat)
    (l : List ParsedFunction) :
    (containsEdgesOf s cid ci j l).filter (fun e => e.type == EdgeType.contains) =
      containsEdgesOf s cid ci j l := by
  rw [List.filter_eq_self]
  intro e he
  simp [containsEdgesOf_types s cid ci j l e he]

theorem addClasses_spec (fns : List ParsedFunction) (cls : List ParsedClass)
    (sm : Bool) (s : String) :
    ∀ (l : List ParsedClass) (i : Nat) (st : BuildState),
      (∀ k, l.get? k = cls.get? (i + k)) → BuildInv fns cls st →
      (∃ dn de dm, addClasses sm s i l st =
          { nodes := st.nodes ++ dn, edges := st.edges ++ de,
            nodeMap := dm ++ st.nodeMap }
        ∧ dn.filter (fun n => strBegins n.id "class-") = classNodesFrom s i l
        ∧ de.filter (fun e => e.type == EdgeType.contains) = containsFrom sm s i l
        ∧ (∀ e ∈ de, e.type = .inherits ∨ e.type = .contains)
        ∧ (sm = false → ∀ n ∈ dn, ¬ n.type = .method))
      ∧ BuildInv fns cls (addClasses sm s i l st) := by
  rcases Bool.eq_false_or_eq_true sm with hsm | hsm
  all_goals subst hsm
  all_goals intro l
  all_goals induction l with
  | nil =>
    intro i st hk hI
    exact ⟨⟨[], [], [], by simp [addClasses], by simp [classNodesFrom],
            by simp [containsFrom], by simp, by simp⟩,
           by simpa [addClasses] using hI⟩
  | cons c cs ih =>
    intro i st hk hI
    have hget : cls.get? i = some c := by simpa using (hk 0).symm
    have hk' : ∀ k, cs.get? k = cls.get? (i + 1 + k) := by
      intro k
      have h := hk (k + 1)
      simp only [List.get?_cons_succ] at h
      rw [h]
      congr 1
      omega
    cases hp : passesSearch s c.name with
    | false =>
      obtain ⟨⟨dn, de, dm, heq, h1, h2, h3, h4⟩, hIf⟩ := ih (i + 1) st hk' hI
      refine ⟨⟨dn, de, dm, ?_, ?_, ?_, h3, h4⟩, ?_⟩
      · simp only [addClasses, hp, Bool.false_eq_true, if_false]
        exact heq
      · rw [h1]
        simp [classNodesFrom, hp]
      · rw [h2]
        simp [containsFrom, hp]
      · simp only [addClasses, hp, Bool.false_eq_true, if_false]
        exact hIf
    | true =>
      have hI1 := inv_push_class hI hget
      have hcid1 : ∃ n ∈ (st.nodes ++ [classNode i c]), n.id = classId i :=
        ⟨classNode i c, List.mem_append.mpr (Or.inr (by simp)), rfl⟩
      first
      | -- showMethods = false : no method pass
        (by_cases hbase : c.bases.length > 0
         case pos =>
          obtain ⟨⟨dnb, deb, dmb, heqB, hdnb, hdeb⟩, hI3⟩ :=
            addBases_spec fns cls (classId i) c.bases 0
              { nodes := st.nodes ++ [classNode i c], edges := st.edges,
                nodeMap := mapSet st.nodeMap c.name (classId i) } hI1 hcid1
          dsimp only at heqB
          rw [heqB] at hI3
          obtain ⟨⟨dn, de, dm, heq, h1, h2, h3, h4⟩, hIf⟩ := ih (i + 1)
            { nodes := st.nodes ++ [classNode i c] ++ dnb,
              edges := st.edges ++ deb,
              nodeMap := dmb ++ mapSet st.nodeMap c.name (classId i) } hk' hI3
          dsimp only at heq
          have hstep : addClasses false s i (c :: cs) st =
              addClasses false s (i + 1) cs
                { nodes := st.nodes ++ [classNode i c] ++ dnb,
                  edges := st.edges ++ deb,
                  nodeMap := dmb ++ mapSet st.nodeMap c.name (classId i) } := by
            simp only [addClasses, hp, if_true, Bool.false_eq_true, if_false]
            rw [if_pos hbase, heqB]
          have hfilb : dnb.filter (fun n => strBegins n.id "class-") = [] := by
            rw [List.filter_eq_nil_iff]
            intro n hn
            obtain ⟨b, rfl⟩ := hdnb n hn
            simp [stubNode, strBegins_base_class]
          have hfile : deb.filter (fun e => e.type == EdgeType.contains) = [] := by
            rw [List.filter_eq_nil_iff]
            intro e he
            simp [hdeb e he]
          refine ⟨⟨classNode i c :: (dnb ++ dn), deb ++ de,
                   dm ++ dmb ++ [(c.name, classId i)], ?_, ?_, ?_, ?_, ?_⟩, ?_⟩
          · rw [hstep, heq]
            simp [mapSet, List.append_assoc]
          · simp only [List.filter_cons, List.filter_append, hfilb, h1,
              List.nil_append]
            simp [classNode, strBegins_classId_class, classNodesFrom, hp]
          · simp only [List.filter_append, hfile, h2, List.nil_append]
            simp [containsFrom, hp]
          · intro e he
            rcases List.mem_append.mp he with he1 | he1
            · exact Or.inl (hdeb e he1)
            · exact h3 e he1
          · intro hf n hn
            rcases List.mem_cons.mp hn with rfl | hn'
            · simp [classNode]
            · rcases List.mem_append.mp hn' with hn2 | hn2
              · obtain ⟨b, rfl⟩ := hdnb n hn2
                simp [stubNode]
              · exact h4 hf n hn2
          · rw [hstep]
            exact hIf
         case neg =>
          obtain ⟨⟨dn, de, dm, heq, h1, h2, h3, h4⟩, hIf⟩ := ih (i + 1)
            { nodes := st.nodes ++ [classNode i c], edges := st.edges,
              nodeMap := mapSet st.nodeMap c.name (classId i) } hk' hI1
          dsimp only at heq
          have hstep : addClasses false s i (c :: cs) st =
              addClasses false s (i + 1) cs
                { nodes := st.nodes ++ [classNode i c], edges := st.edges,
                  nodeMap := mapSet st.nodeMap c.name (classId i) } := by
            simp only [addClasses, hp, if_true, Bool.false_eq_true, if_false]
            rw [if_neg hbase]
          refine ⟨⟨classNode i c :: dn, de, dm ++ [(c.name, classId i)],
                   ?_, ?_, ?_, h3, ?_⟩, ?_⟩
          · rw [hstep, heq]
            simp [mapSet, List.append_assoc]
          · simp only [List.filter_cons, h1]
            simp [classNode, strBegins_classId_class, classNodesFrom, hp]
          · rw [h2]
            simp [containsFrom, hp]
          · intro hf n hn
            rcases List.mem_cons.mp hn with rfl | hn'
            · simp [classNode]
            · exact h4 hf n hn'
          · rw [hstep]
            exact hIf)
      | -- showMethods = true : method pass runs
        (obtain ⟨heqM, hI2⟩ :=
          addMethods_spec fns cls s (classId i) i c hget c.methods 0
            { nodes := st.nodes ++ [classNode i c], edges := st.edges,
              nodeMap := mapSet st.nodeMap c.name (classId i) }
            (by simp) hI1 hcid1
         dsimp only at heqM
         rw [heqM] at hI2
         have hcid2 : ∃ n ∈ (st.nodes ++ [classNode i c] ++ methodNodesOf s i 0 c.methods),
             n.id = classId i := by
           obtain ⟨n0, hn0, h0⟩ := hcid1
           exact ⟨n0, List.mem_append.mpr (Or.inl hn0), h0⟩
         by_cases hbase : c.bases.length > 0
         case pos =>
          obtain ⟨⟨dnb, deb, dmb, heqB, hdnb, hdeb⟩, hI3⟩ :=
            addBases_spec fns cls (classId i) c.bases 0
              { nodes := st.nodes ++ [classNode i c] ++ methodNodesOf s i 0 c.methods,
                edges := st.edges ++ containsEdgesOf s (classId i) i 0 c.methods,
                nodeMap := mapSet st.nodeMap c.name (classId i) } hI2 hcid2
          dsimp only at heqB
          rw [heqB] at hI3
          obtain ⟨⟨dn, de, dm, heq, h1, h2, h3, h4⟩, hIf⟩ := ih (i + 1)
            { nodes := st.nodes ++ [classNode i c] ++ methodNodesOf s i 0 c.methods ++ dnb,
              edges := st.edges ++ containsEdgesOf s (classId i) i 0 c.methods ++ deb,
              nodeMap := dmb ++ mapSet st.nodeMap c.name (classId i) } hk' hI3
          dsimp only at heq
          have hstep : addClasses true s i (c :: cs) st =
              addClasses true s (i + 1) cs
                { nodes := st.nodes ++ [classNode i c] ++ methodNodesOf s i 0 c.methods ++ dnb,
                  edges := st.edges ++ containsEdgesOf s (classId i) i 0 c.methods ++ deb,
                  nodeMap := dmb ++ mapSet st.nodeMap c.name (classId i) } := by
            simp only [addClasses, hp, if_true]
            rw [heqM, if_pos hbase, heqB]
          have hfilb : dnb.filter (fun n => strBegins n.id "class-") = [] := by
            rw [List.filter_eq_nil_iff]
            intro n hn
            obtain ⟨b, rfl⟩ := hdnb n hn
            simp [stubNode, strBegins_base_class]
          have hfile : deb.filter (fun e => e.type == EdgeType.contains) = [] := by
            rw [List.filter_eq_nil_iff]
            intro e he
            simp [hdeb e he]
          refine ⟨⟨classNode i c :: (methodNodesOf s i 0 c.methods ++ dnb ++ dn),
                   containsEdgesOf s (classId i) i 0 c.methods ++ deb ++ de,
                   dm ++ dmb ++ [(c.name, classId i)], ?_, ?_, ?_, ?_, ?_⟩, ?_⟩
          · rw [hstep, heq]
            simp [mapSet, List.append_assoc]
          · simp only [List.filter_cons, List.filter_append, hfilb,
              methodNodesOf_class_filter, h1, List.nil_append, List.append_nil]
            simp [classNode, strBegins_classId_class, classNodesFrom, hp]
          · simp only [List.filter_append, hfile, containsEdgesOf_self_filter,
              h2, List.nil_append, List.append_nil]
            simp [containsFrom, hp]
          · intro e he
            rcases List.mem_append.mp he with he1 | he1
            · rcases List.mem_append.mp he1 with he2 | he2
              · exact Or.inr (containsEdgesOf_types s (classId i) i 0 c.methods e he2)
              · exact Or.inl (hdeb e he2)
            · exact h3 e he1
          · intro hf
            simp at hf
          · rw [hstep]
            exact hIf
         case neg =>
          obtain ⟨⟨dn, de, dm, heq, h1, h2, h3, h4⟩, hIf⟩ := ih (i + 1)
            { nodes := st.nodes ++ [classNode i c] ++ methodNodesOf s i 0 c.methods,
              edges := st.edges ++ containsEdgesOf s (classId i) i 0 c.methods,
              nodeMap := mapSet st.nodeMap c.name (classId i) } hk' hI2
          dsimp only at heq
          have hstep : addClasses true s i (c :: cs) st =
              addClasses true s (i + 1) cs
                { nodes := st.nodes ++ [classNode i c] ++ methodNodesOf s i 0 c.methods,
                  edges := st.edges ++ containsEdgesOf s (classId i) i 0 c.methods,
                  nodeMap := mapSet st.nodeMap c.name (classId i) } := by
            simp only [addClasses, hp, if_true]
            rw [heqM, if_neg hbase]
          refine ⟨⟨classNode i c :: (methodNodesOf s i 0 c.methods ++ dn),
                   containsEdgesOf s (classId i) i 0 c.methods ++ de,
                   dm ++ [(c.name, classId i)], ?_, ?_, ?_, ?_, ?_⟩, ?_⟩
          · rw [hstep, heq]
            simp [mapSet, List.append_assoc]
          · simp only [List.filter_cons, List.filter_append,
              methodNodesOf_class_filter, h1, List.nil_append]
            simp [classNode, strBegins_classId_class, classNodesFrom, hp]
          · simp only [List.filter_append, containsEdgesOf_self_filter, h2]
            simp [containsFrom, hp]
          · intro e he
            rcases List.mem_append.mp he with he1 | he1
            · exact Or.inr (containsEdgesOf_types s (classId i) i 0 c.methods e he1)
            · exact h3 e he1
          · intro hf
            simp at hf
          · rw [hstep]
            exact hIf)

theorem addFunctionCalls_spec :
    ∀ (l : List Relationship) (i : Nat) (st : BuildState),
      addFunctionCalls i l st = { st with edges := st.edges ++ fcEdges st.nodeMap i l } := by
  intro l
  induction l with
  | nil => intro i st; simp [addFunctionCalls, fcEdges]
  | cons c rest ih =>
    intro i st
    rw [addFunctionCalls, ih]
    simp [fcEdges, List.append_assoc]

theorem addMethodCalls_spec :
    ∀ (l : List Relationship) (i : Nat) (st : BuildState),
      addMethodCalls i l st = { st with edges := st.edges ++ mcEdges st.nodes st.nodeMap i l } := by
  intro l
  induction l with
  | nil => intro i st; simp [addMethodCalls, mcEdges]
  | cons c rest ih =>
    intro i st
    rw [addMethodCalls, ih]
    simp [mcEdges, List.append_assoc]

theorem fcEdge_cases {m : NodeMap} {i : Nat} {call : Relationship} {e : GraphEdge}
    (h : fcEdge m i call = some e) :
    ∃ x y crId ceId, mapGet m x = some crId ∧ mapGet m y = some ceId ∧
      ¬ crId = ceId ∧ e = callEdge i crId ceId := by
  cases hce : call.callee with
  | none => simp [fcEdge, hce] at h
  | some callee =>
    cases hcallr : call.caller with
    | none =>
      simp only [fcEdge, hce, hcallr] at h
      split at h
      · simp at h
      · simp at h
    | some caller =>
      simp only [fcEdge, hce, hcallr] at h
      split at h
      case isFalse => simp at h
      case isTrue hg1 =>
        by_cases hg2 : (!strEmpty caller && mapHas m caller) = true
        · rw [if_pos hg2] at h
          cases hgc : mapGet m caller with
          | none => rw [hgc] at h; simp at h
          | some crId =>
            rw [hgc] at h
            cases hge : mapGet m callee with
            | none => rw [hge] at h; simp at h
            | some ceId =>
              rw [hge] at h
              dsimp only at h
              split at h
              · rename_i hg3
                have he : e = callEdge i crId ceId := by simpa using h.symm
                have hne : ¬ crId = ceId := by
                  simpa using (Bool.and_eq_true _ _ |>.mp hg3).2
                exact ⟨caller, callee, crId, ceId, hgc, hge, hne, he⟩
              · simp at h
        · rw [if_neg hg2] at h
          simp at h

theorem mcEdge_cases {nodes : List GraphNode} {m : NodeMap} {i : Nat}
    {call : Relationship} {e : GraphEdge} (h : mcEdge nodes m i call = some e) :
    ∃ obj oid mn, mapGet m obj = some oid ∧ mn ∈ nodes ∧ mn.type = .method ∧
      e = methodCallEdge i oid mn.id := by
  cases hob : call.object with
  | none => simp [mcEdge, hob] at h
  | some obj =>
    cases hme : call.method with
    | none => simp [mcEdge, hob, hme] at h
    | some mname =>
      simp only [mcEdge, hob, hme] at h
      split at h
      case isFalse => simp at h
      case isTrue hg1 =>
        cases hgo : mapGet m obj with
        | none => rw [hgo] at h; simp at h
        | some oid =>
          rw [hgo] at h
          cases hfind : nodes.find? (fun n =>
              n.type == NodeType.method && n.nodeData.name == mname &&
                strIncludes n.id "method-") with
          | none => rw [hfind] at h; simp at h
          | some mn =>
            rw [hfind] at h
            dsimp only at h
            split at h
            · have he : e = methodCallEdge i oid mn.id := by simpa using h.symm
              have hmem := List.mem_of_find?_eq_some hfind
              have hpred := List.find?_some hfind
              have htype : mn.type = NodeType.method := by
                have h1 := (Bool.and_eq_true _ _ |>.mp hpred).1
                have h2 := (Bool.and_eq_true _ _ |>.mp h1).1
                simpa using h2
              exact ⟨obj, oid, mn, hgo, hmem, htype, he⟩
            · simp at h

theorem origin_method_id {fns : List ParsedFunction} {cls : List ParsedClass}
    {n : GraphNode} (ho : NodeOrigin fns cls n) (ht : n.type = .method) :
    ∃ i j, n.id = methodId i j := by
  obtain ⟨r, hr⟩ := ho
  cases r with
  | func i =>
    simp only [entityNode, Option.map_eq_some'] at hr
    obtain ⟨f, -, rfl⟩ := hr
    simp [funcNode] at ht
  | cls i =>
    simp only [entityNode, Option.map_eq_some'] at hr
    obtain ⟨c, -, rfl⟩ := hr
    simp [classNode] at ht
  | meth i j =>
    simp only [entityNode, Option.bind_eq_some, Option.map_eq_some'] at hr
    obtain ⟨c, -, mth, -, rfl⟩ := hr
    exact ⟨i, j, rfl⟩
  | base b =>
    simp only [entityNode, Option.some.injEq] at hr
    subst hr
    simp [stubNode] at ht

theorem fcEdges_mem {m : NodeMap} :
    ∀ (l : List Relationship) (i : Nat) (e : GraphEdge),
      e ∈ fcEdges m i l → ∃ k c, fcEdge m k c = some e := by
  intro l
  induction l with
  | nil => simp [fcEdges]
  | cons c rest ih =>
    intro i e he
    rw [fcEdges] at he
    rcases List.mem_append.mp he with h | h
    · refine ⟨i, c, ?_⟩
      cases hfc : fcEdge m i c with
      | none => rw [hfc] at h; simp at h
      | some e' =>
        rw [hfc] at h
        have he' : e = e' := by simpa using h
        rw [he']
    · exact ih (i + 1) e h

theorem mcEdges_mem {nodes : List GraphNode} {m : NodeMap} :
    ∀ (l : List Relationship) (i : Nat) (e : GraphEdge),
      e ∈ mcEdges nodes m i l → ∃ k c, mcEdge nodes m k c = some e := by
  intro l
  induction l with
  | nil => simp [mcEdges]
  | cons c rest ih =>
    intro i e he
    rw [mcEdges] at he
    rcases List.mem_append.mp he with h | h
    · refine ⟨i, c, ?_⟩
      cases hfc : mcEdge nodes m i c with
      | none => rw [hfc] at h; simp at h
      | some e' =>
        rw [hfc] at h
        have he' : e = e' := by simpa using h
        rw [he']
    · exact ih (i + 1) e h

/-- Appending a batch of well-formed `calls` edges preserves the invariant. -/
theorem inv_append_edges {fns : List ParsedFunction} {cls : List ParsedClass}
    {st : BuildState} (hI : BuildInv fns cls st) {de : List GraphEdge}
    (hde : ∀ e ∈ de,
      (∃ n ∈ st.nodes, n.id = e.source) ∧ (∃ n ∈ st.nodes, n.id = e.target) ∧
        ¬ e.source = e.target) :
    BuildInv fns cls { st with edges := st.edges ++ de } where
  mapSound := hI.mapSound
  mapShape := hI.mapShape
  origin := hI.origin
  edgesClosed e he := by
    rcases List.mem_append.mp he with h | h
    · exact hI.edgesClosed e h
    · exact ⟨(hde e h).1, (hde e h).2.1⟩
  noLoop e he ht := by
    rcases List.mem_append.mp he with h | h
    · exact hI.noLoop e h ht
    · exact (hde e h).2.2
  stubOnce := hI.stubOnce

theorem finalState_inv (fns : List ParsedFunction) (cls : List ParsedClass)
    (rels : Relationships) (flags : Flags) (s : String)
    (hI2 : BuildInv fns cls (structuralState fns cls flags s)) :
    BuildInv fns cls (finalState fns cls rels flags s) := by
  unfold finalState
  cases hr : flags.showRelationships with
  | false => simpa using hI2
  | true =>
    simp only [if_true]
    rw [addFunctionCalls_spec, addMethodCalls_spec]
    set st2 := structuralState fns cls flags s with hst2
    have hIfc : BuildInv fns cls
        { st2 with edges := st2.edges ++ fcEdges st2.nodeMap 0 rels.function_calls } := by
      refine inv_append_edges hI2 ?_
      intro e he
      obtain ⟨k, c, hk⟩ := fcEdges_mem rels.function_calls 0 e he
      obtain ⟨x, y, crId, ceId, hx, hy, hne, rfl⟩ := fcEdge_cases hk
      obtain ⟨n1, hn1, h1⟩ := hI2.mapSound x crId (mapGet_mem hx)
      obtain ⟨n2, hn2, h2⟩ := hI2.mapSound y ceId (mapGet_mem hy)
      exact ⟨⟨n1, hn1, h1⟩, ⟨n2, hn2, h2⟩, by simpa [callEdge] using hne⟩
    refine inv_append_edges hIfc ?_
    intro e he
    simp only at he
    obtain ⟨k, c, hk⟩ := mcEdges_mem rels.method_calls 0 e he
    obtain ⟨obj, oid, mn, ho, hmn, htype, rfl⟩ := mcEdge_cases hk
    obtain ⟨n1, hn1, h1⟩ := hI2.mapSound obj oid (mapGet_mem ho)
    have hshape : IdShape oid := hI2.mapShape obj oid (mapGet_mem ho)
    obtain ⟨a, b, hab⟩ := origin_method_id (hI2.origin mn hmn) htype
    refine ⟨⟨n1, hn1, h1⟩, ⟨mn, hmn, rfl⟩, ?_⟩
    simp only [methodCallEdge]
    rw [hab]
    exact IdShape_ne_methodId hshape a b

theorem fcEdges_types {m : NodeMap} {l : List Relationship} {i : Nat} :
    ∀ e ∈ fcEdges m i l, e.type = .calls := by
  intro e he
  obtain ⟨k, c, hk⟩ := fcEdges_mem l i e he
  obtain ⟨-, -, -, -, -, -, -, rfl⟩ := fcEdge_cases hk
  rfl

theorem mcEdges_types {nodes : List GraphNode} {m : NodeMap} {l : List Relationship} {i : Nat} :
    ∀ e ∈ mcEdges nodes m i l, e.type = .calls := by
  intro e he
  obtain ⟨k, c, hk⟩ := mcEdges_mem l i e he
  obtain ⟨-, -, -, -, -, -, rfl⟩ := mcEdge_cases hk
  rfl

theorem structuralState_spec (fns : List ParsedFunction) (cls : List ParsedClass)
    (flags : Flags) (s : String) :
    BuildInv fns cls (structuralState fns cls flags s)
  ∧ ∃ dn de dm,
      structuralState fns cls flags s =
        { nodes := (if flags.showFunctions then funcNodesFrom s 0 fns else []) ++ dn,
          edges := de, nodeMap := dm }
      ∧ dn.filter (fun n => strBegins n.id "class-") =
          (if flags.showClasses then classNodesFrom s 0 cls else [])
      ∧ de.filter (fun e => e.type == EdgeType.contains) =
          (if flags.showClasses then containsFrom flags.showMethods s 0 cls else [])
      ∧ (∀ e ∈ de, e.type = .inherits ∨ e.type = .contains)
      ∧ (flags.showMethods = false → ∀ n ∈ dn, ¬ n.type = .method)
      ∧ (flags.showClasses = false → dn = [] ∧ de = []) := by
  have hkF : ∀ k, fns.get? k = fns.get? (0 + k) := by intro k; simp
  have hkC : ∀ k, cls.get? k = cls.get? (0 + k) := by intro k; simp
  have h0 := inv_empty fns cls
  unfold structuralState
  cases hf : flags.showFunctions with
  | true =>
    simp only [if_true]
    obtain ⟨⟨dmF, heqF⟩, hI1⟩ :=
      addFunctions_spec fns cls s fns 0 { nodes := [], edges := [], nodeMap := [] } hkF h0
    dsimp only at heqF
    rw [heqF] at hI1
    simp only [List.nil_append, List.append_nil] at heqF hI1
    cases hc : flags.showClasses with
    | true =>
      simp only [if_true]
      obtain ⟨⟨dn, de, dm, heqC, h1, h2, h3, h4⟩, hI2⟩ :=
        addClasses_spec fns cls flags.showMethods s cls 0
          { nodes := funcNodesFrom s 0 fns, edges := [], nodeMap := dmF } hkC hI1
      dsimp only at heqC
      rw [heqF, heqC]
      simp only [List.nil_append] at heqC ⊢
      refine ⟨?_, dn, de, dm ++ dmF, rfl, h1, h2, h3, h4, by simp⟩
      rw [heqC] at hI2
      exact hI2
    | false =>
      simp only [Bool.false_eq_true, if_false]
      rw [heqF]
      refine ⟨hI1, [], [], dmF, by simp, by simp, by simp, by simp, by simp, by simp⟩
  | false =>
    simp only [Bool.false_eq_true, if_false]
    cases hc : flags.showClasses with
    | true =>
      simp only [if_true]
      obtain ⟨⟨dn, de, dm, heqC, h1, h2, h3, h4⟩, hI2⟩ :=
        addClasses_spec fns cls flags.showMethods s cls 0
          { nodes := [], edges := [], nodeMap := [] } hkC h0
      dsimp only at heqC
      simp only [List.nil_append, List.append_nil] at heqC
      rw [heqC]
      refine ⟨?_, dn, de, dm, rfl, h1, h2, h3, h4, by simp⟩
      rw [heqC] at hI2
      exact hI2
    | false =>
      simp only [Bool.false_eq_true, if_false]
      exact ⟨h0, [], [], [], rfl, by simp, by simp, by simp, by simp, by simp⟩

theorem finalState_decomp (fns : List ParsedFunction) (cls : List ParsedClass)
    (rels : Relationships) (flags : Flags) (s : String) :
    (finalState fns cls rels flags s).nodes = (structuralState fns cls flags s).nodes
  ∧ (finalState fns cls rels flags s).nodeMap = (structuralState fns cls flags s).nodeMap
  ∧ ∃ dc, (finalState fns cls rels flags s).edges =
        (structuralState fns cls flags s).edges ++ dc
      ∧ (∀ e ∈ dc, e.type = .calls)
      ∧ (flags.showRelationships = false → dc = [])
      ∧ (flags.showRelationships = true →
          dc = fcEdges (structuralState fns cls flags s).nodeMap 0 rels.function_calls ++
            mcEdges (structuralState fns cls flags s).nodes
              (structuralState fns cls flags s).nodeMap 0 rels.method_calls) := by
  unfold finalState
  cases hr : flags.showRelationships with
  | false =>
    simp only [Bool.false_eq_true, if_false]
    refine ⟨True.intro, True.intro, [], by simp, by simp, fun _ => rfl, ?_⟩
    intro h
    exact absurd h (by simp)
  | true =>
    simp only [if_true]
    rw [addFunctionCalls_spec, addMethodCalls_spec]
    dsimp only
    refine ⟨rfl, rfl,
      fcEdges (structuralState fns cls flags s).nodeMap 0 rels.function_calls ++
        mcEdges (structuralState fns cls flags s).nodes
          (structuralState fns cls flags s).nodeMap 0 rels.method_calls,
      by simp [List.append_assoc], ?_, by simp, fun _ => rfl⟩
    intro e he
    rcases List.mem_append.mp he with h | h
    · exact fcEdges_types e h
    · exact mcEdges_types e h

theorem strBegins_funcId_base (i : Nat) : strBegins (funcId i) "base-" = false := rfl

theorem containsFrom_false (s : String) :
    ∀ (i : Nat) (l : List ParsedClass), containsFrom false s i l = [] := by
  intro i l
  induction l generalizing i with
  | nil => rfl
  | cons c cs ih =>
    cases hp : passesSearch s c.name with
    | true => simp [containsFrom, hp, ih]
    | false => simp [containsFrom, hp, ih]

theorem containsEdgesOf_length (s cid : String) (ci : Nat) :
    ∀ (j : Nat) (l : List ParsedFunction),
      (containsEdgesOf s cid ci j l).length =
        (l.filter (fun m => passesSearch s m.name)).length := by
  intro j l
  induction l generalizing j with
  | nil => rfl
  | cons m ms ih =>
    cases hp : passesSearch s m.name with
    | true => simp [containsEdgesOf, hp, List.filter_cons, ih]
    | false => simp [containsEdgesOf, hp, List.filter_cons, ih]

theorem containsFrom_true_length (s : String) :
    ∀ (i : Nat) (l : List ParsedClass),
      (containsFrom true s i l).length =
        (((l.filter (fun c => passesSearch s c.name)).map
          (fun c => (c.methods.filter (fun m => passesSearch s m.name)).length)).sum) := by
  intro i l
  induction l generalizing i with
  | nil => rfl
  | cons c cs ih =>
    cases hp : passesSearch s c.name with
    | true =>
      simp [containsFrom, hp, List.filter_cons, containsEdgesOf_length, ih]
    | false =>
      simp [containsFrom, hp, List.filter_cons, ih]

/-- The full yield/skip condition of one `function_calls` record, given
well-shaped registry values: an edge is produced exactly when the callee is
truthy and registered, the caller is truthy and registered, and the two
resolved ids differ. -/
theorem fcEdge_some_iff {m : NodeMap} (hm : ∀ k v, (k, v) ∈ m → IdShape v)
    (i : Nat) (call : Relationship) :
    (∃ e, fcEdge m i call = some e) ↔
      ∃ caller callee, call.caller = some caller ∧ call.callee = some callee ∧
        strEmpty callee = false ∧ mapHas m callee = true ∧
        strEmpty caller = false ∧ mapHas m caller = true ∧
        ¬ mapGet m caller = mapGet m callee := by
  constructor
  · rintro ⟨e, h⟩
    cases hce : call.callee with
    | none => simp [fcEdge, hce] at h
    | some callee =>
      cases hcallr : call.caller with
      | none =>
        simp only [fcEdge, hce, hcallr] at h
        split at h
        · simp at h
        · simp at h
      | some caller =>
        simp only [fcEdge, hce, hcallr] at h
        split at h
        case isFalse => simp at h
        case isTrue hg1 =>
          by_cases hg2 : (!strEmpty caller && mapHas m caller) = true
          · rw [if_pos hg2] at h
            cases hgc : mapGet m caller with
            | none => rw [hgc] at h; simp at h
            | some crId =>
              rw [hgc] at h
              cases hge : mapGet m callee with
              | none => rw [hge] at h; simp at h
              | some ceId =>
                rw [hge] at h
                dsimp only at h
                split at h
                · rename_i hg3
                  have hne : ¬ crId = ceId := by
                    simpa using (Bool.and_eq_true _ _ |>.mp hg3).2
                  refine ⟨caller, callee, rfl, rfl, ?_, ?_, ?_, ?_, ?_⟩
                  · simpa using (Bool.and_eq_true _ _ |>.mp hg1).1
                  · exact (Bool.and_eq_true _ _ |>.mp hg1).2
                  · simpa using (Bool.and_eq_true _ _ |>.mp hg2).1
                  · exact (Bool.and_eq_true _ _ |>.mp hg2).2
                  · rw [hgc, hge]
                    simp [hne]
                · simp at h
          · rw [if_neg hg2] at h
            simp at h
  · rintro ⟨caller, callee, hcallr, hce, he1, hh1, he2, hh2, hne⟩
    obtain ⟨ceId, hge⟩ := mapHas_get hh1
    obtain ⟨crId, hgc⟩ := mapHas_get hh2
    have hsh1 : IdShape ceId := hm callee ceId (mapGet_mem hge)
    have hsh2 : IdShape crId := hm caller crId (mapGet_mem hgc)
    refine ⟨callEdge i crId ceId, ?_⟩
    have hne' : (crId == ceId) = false := by
      refine beq_eq_false_iff_ne.mpr ?_
      intro hx
      exact hne (by rw [hgc, hge, hx])
    simp only [fcEdge, hce, hcallr, he1, he2, hh1, hh2, Bool.not_false,
      Bool.and_self, if_true, hgc, hge, IdShape_not_empty hsh1,
      IdShape_not_empty hsh2, hne', Bool.and_true, Bool.not_false]

theorem finalInv (fns : List ParsedFunction) (cls : List ParsedClass)
    (rels : Relationships) (flags : Flags) (s : String) :
    BuildInv fns cls (finalState fns cls rels flags s) :=
  finalState_inv fns cls rels flags s (structuralState_spec fns cls flags s).1

/-!  ## The claims -/

/-- C1: every function, class, and method node of any build is fully
determined by the entity model and an entity reference alone (`entityNode`
and `refId` take no filter flags and no search term), its id being
`func-{originalIndex}`, `class-{originalIndex}`,
`method-{classIndex}-{methodIndex}` or `base-{name}`; hence a node present
in two builds (any two filter/search states) for the same original entity
has the same id in both. -/
theorem claim1_node_ids_stable (fns : List ParsedFunction) (cls : List ParsedClass)
    (rels₁ rels₂ : Relationships) (flags₁ flags₂ : Flags) (s₁ s₂ : String) :
    (∀ n ∈ (transformDataToGraph fns cls rels₁ flags₁ s₁).1,
      ∃ r, entityNode fns cls r = some n ∧ n.id = refId r)
  ∧ (∀ (n₁ n₂ : GraphNode) (r : ERef),
      n₁ ∈ (transformDataToGraph fns cls rels₁ flags₁ s₁).1 →
      n₂ ∈ (transformDataToGraph fns cls rels₂ flags₂ s₂).1 →
      entityNode fns cls r = some n₁ → entityNode fns cls r = some n₂ →
      n₁.id = n₂.id) := by
  constructor
  · intro n hn
    have hI := finalInv fns cls rels₁ flags₁ s₁
    obtain ⟨r, hr⟩ := hI.origin n hn
    exact ⟨r, hr, entityNode_id hr⟩
  · intro n₁ n₂ r _ _ h₁ h₂
    rw [h₁] at h₂
    rw [Option.some.inj h₂]

/-- C1 witness: in the all-flags build from one function `f`, the node for
function index 0 stems from reference `ERef.func 0` and its id is stable. -/
theorem claim1_witness :
    ∃ r, entityNode [fxF] [] r = some (funcNode 0 fxF) ∧ (funcNode 0 fxF).id = refId r :=
  (claim1_node_ids_stable [fxF] [] {} {} allFlags allFlags "" "").1
    (funcNode 0 fxF) (by decide)

/-- C4: no `calls` edge of any build is a self-loop: the function-call pass
guards `callerId !== calleeId` explicitly, and the method-call pass always
links a registry value (a `func-`/`class-`/`base-` id) to a method node
(a `method-` id), which can never coincide. -/
theorem claim4_no_self_loops (fns : List ParsedFunction) (cls : List ParsedClass)
    (rels : Relationships) (flags : Flags) (s : String) :
    ∀ e ∈ (transformDataToGraph fns cls rels flags s).2,
      e.type = EdgeType.calls → ¬ e.source = e.target := by
  intro e he ht
  exact (finalInv fns cls rels flags s).noLoop e he ht

/-- C4 witness: the concrete `f` calls `g` build has a `calls` edge, and the
theorem applies to it. -/
theorem claim4_witness :
    ¬ (callEdge 0 (funcId 0) (funcId 1)).source = (callEdge 0 (funcId 0) (funcId 1)).target :=
  claim4_no_self_loops [fxF, fxG] [] fxRels allFlags ""
    (callEdge 0 (funcId 0) (funcId 1)) (by decide) (by decide)

/-- C8: the build is deterministic: identical entity collections,
relationship collections, flags, and search term give identical node-id
sets, identical edge-id sets, and identical node/edge contents. -/
theorem claim8_deterministic (f₁ f₂ : List ParsedFunction) (c₁ c₂ : List ParsedClass)
    (r₁ r₂ : Relationships) (fl₁ fl₂ : Flags) (s₁ s₂ : String)
    (hf : f₁ = f₂) (hc : c₁ = c₂) (hr : r₁ = r₂) (hfl : fl₁ = fl₂) (hs : s₁ = s₂) :
    (transformDataToGraph f₁ c₁ r₁ fl₁ s₁).1.map (fun n => n.id) =
        (transformDataToGraph f₂ c₂ r₂ fl₂ s₂).1.map (fun n => n.id)
    ∧ (transformDataToGraph f₁ c₁ r₁ fl₁ s₁).2.map (fun e => e.id) =
        (transformDataToGraph f₂ c₂ r₂ fl₂ s₂).2.map (fun e => e.id)
    ∧ transformDataToGraph f₁ c₁ r₁ fl₁ s₁ = transformDataToGraph f₂ c₂ r₂ fl₂ s₂ := by
  subst hf hc hr hfl hs
  exact ⟨rfl, rfl, rfl⟩

/-- C8 witness: the theorem applied to two literally equal concrete inputs. -/
theorem claim8_witness :
    transformDataToGraph [fxF, fxG] [] fxRels allFlags "" =
      transformDataToGraph [fxF, fxG] [] fxRels allFlags "" :=
  (claim8_deterministic [fxF, fxG] [fxF, fxG] [] [] fxRels fxRels allFlags allFlags "" ""
    rfl rfl rfl rfl rfl).2.2

/-- C9: referential integrity: the source and the target of every edge of
every build occur as the id of some node of the same build. -/
theorem claim9_referential_integrity (fns : List ParsedFunction) (cls : List ParsedClass)
    (rels : Relationships) (flags : Flags) (s : String) :
    ∀ e ∈ (transformDataToGraph fns cls rels flags s).2,
      (∃ n ∈ (transformDataToGraph fns cls rels flags s).1, n.id = e.source) ∧
      (∃ n ∈ (transformDataToGraph fns cls rels flags s).1, n.id = e.target) := by
  intro e he
  exact (finalInv fns cls rels flags s).edgesClosed e he

/-- C9 witness: the `calls` edge of the concrete `f` calls `g` build is
closed over the build's nodes. -/
theorem claim9_witness :
    (∃ n ∈ (transformDataToGraph [fxF, fxG] [] fxRels allFlags "").1,
      n.id = (callEdge 0 (funcId 0) (funcId 1)).source) ∧
    (∃ n ∈ (transformDataToGraph [fxF, fxG] [] fxRels allFlags "").1,
      n.id = (callEdge 0 (funcId 0) (funcId 1)).target) :=
  claim9_referential_integrity [fxF, fxG] [] fxRels allFlags ""
    (callEdge 0 (funcId 0) (funcId 1)) (by decide)

/-- C2 counterexample: with `showClasses=true`, `searchTerm=""` and one
class `B` with `bases: ["A"]`, the build holds TWO nodes of kind class (the
parsed class `B` and the synthetic stub `base-A`, which also carries kind
class), although exactly one parsed class matches the search; the stub's
name `A` is no parsed class's name.  So the set of class-kind nodes is not
exactly the matching parsed classes. -/
theorem claim2_counterexample :
    ((transformDataToGraph [] [cexClass] {} allFlags "").1.filter
        (fun n => n.type == NodeType.class_)).length = 2
  ∧ ([cexClass].filter (fun c => passesSearch "" c.name)).length = 1
  ∧ ((transformDataToGraph [] [cexClass] {} allFlags "").1.filter
        (fun n => n.type == NodeType.class_ && n.id == "base-A")).length = 1
  ∧ (∀ c ∈ [cexClass], ¬ c.name = "A") := by
  refine ⟨by decide, by decide, by decide, by decide⟩

/-- C2 amended: with `showClasses=true`, the nodes whose id has the
`class-{i}` form are exactly one class node per parsed class whose name
contains the search term case-insensitively, in original order
(`classNodesFrom`); any further class-kind node is a synthetic base stub
`base-{name}`. -/
theorem claim2_amended_search (fns : List ParsedFunction) (cls : List ParsedClass)
    (rels : Relationships) (sf sm sr : Bool) (s : String) :
    ((transformDataToGraph fns cls rels (Flags.mk sf true sm sr) s).1.filter
        (fun n => strBegins n.id "class-")) = classNodesFrom s 0 cls
  ∧ (∀ n ∈ (transformDataToGraph fns cls rels (Flags.mk sf true sm sr) s).1,
      n.type = NodeType.class_ →
        (∃ i c, cls.get? i = some c ∧ n = classNode i c) ∨
        (∃ b, n = stubNode b ("base-" ++ b))) := by
  obtain ⟨hI, dn, de, dm, heq, h1, h2, h3, h4, h5⟩ :=
    structuralState_spec fns cls (Flags.mk sf true sm sr) s
  have hd := finalState_decomp fns cls rels (Flags.mk sf true sm sr) s
  constructor
  · have hnodes : (transformDataToGraph fns cls rels (Flags.mk sf true sm sr) s).1 =
        (structuralState fns cls (Flags.mk sf true sm sr) s).nodes := hd.1
    rw [hnodes, heq]
    dsimp only at h1 ⊢
    rw [List.filter_append]
    have hffil : ((if sf = true then funcNodesFrom s 0 fns else []).filter
        (fun n => strBegins n.id "class-")) = [] := by
      cases sf with
      | true => simpa using funcNodesFrom_class_filter s 0 fns
      | false => simp
    rw [hffil]
    simpa using h1
  · intro n hn hty
    have hn' : n ∈ (finalState fns cls rels (Flags.mk sf true sm sr) s).nodes := hn
    obtain ⟨r, hr⟩ := (finalInv fns cls rels (Flags.mk sf true sm sr) s).origin n hn'
    cases r with
    | func i =>
      simp only [entityNode, Option.map_eq_some'] at hr
      obtain ⟨f, -, rfl⟩ := hr
      simp [funcNode] at hty
    | cls i =>
      simp only [entityNode, Option.map_eq_some'] at hr
      obtain ⟨c, hc, rfl⟩ := hr
      exact Or.inl ⟨i, c, by simpa using hc, rfl⟩
    | meth i j =>
      simp only [entityNode, Option.bind_eq_some, Option.map_eq_some'] at hr
      obtain ⟨c, -, mth, -, rfl⟩ := hr
      simp [methodNode] at hty
    | base b =>
      simp only [entityNode, Option.some.injEq] at hr
      exact Or.inr ⟨b, hr.symm⟩

/-- C3: the concrete `bases: ["Unknown"]` scenario yields exactly one node
with id `base-Unknown` and exactly the one `inherits` edge
`class-0 -> base-Unknown`; in general a stub id `base-{b}` occurs at most
once per build, and every node carrying an id of that form is a stub of
kind class with the degenerate payload (empty bases, empty methods, null
docstring). -/
theorem claim3_stub_creation :
    (((transformDataToGraph [] [stubScenarioClass] {} allFlags "").1.filter
        (fun n => n.id == "base-Unknown")).length = 1
      ∧ (transformDataToGraph [] [stubScenarioClass] {} allFlags "").2 =
          [inheritsEdge (classId 0) "base-Unknown" 0])
  ∧ (∀ (fns : List ParsedFunction) (cls : List ParsedClass) (rels : Relationships)
      (flags : Flags) (s b : String),
      (transformDataToGraph fns cls rels flags s).1.countP
          (fun n => n.id == "base-" ++ b) ≤ 1)
  ∧ (∀ (fns : List ParsedFunction) (cls : List ParsedClass) (rels : Relationships)
      (flags : Flags) (s b : String) (n : GraphNode),
      n ∈ (transformDataToGraph fns cls rels flags s).1 → n.id = "base-" ++ b →
      n.type = NodeType.class_ ∧ n.nodeData = stubNodeData b) := by
  refine ⟨⟨by decide, by decide⟩, ?_, ?_⟩
  · intro fns cls rels flags s b
    exact (finalInv fns cls rels flags s).stubOnce b
  · intro fns cls rels flags s b n hn hid
    obtain ⟨r, hr⟩ := (finalInv fns cls rels flags s).origin n hn
    cases r with
    | func i =>
      simp only [entityNode, Option.map_eq_some'] at hr
      obtain ⟨f, -, rfl⟩ := hr
      exact absurd hid (funcId_ne_base i b)
    | cls i =>
      simp only [entityNode, Option.map_eq_some'] at hr
      obtain ⟨c, -, rfl⟩ := hr
      exact absurd hid (classId_ne_base i b)
    | meth i j =>
      simp only [entityNode, Option.bind_eq_some, Option.map_eq_some'] at hr
      obtain ⟨c, -, mth, -, rfl⟩ := hr
      exact absurd hid (methodId_ne_base i j b)
    | base b' =>
      simp only [entityNode, Option.some.injEq] at hr
      subst hr
      have hb : b' = b := str_append_inj hid
      subst hb
      exact ⟨rfl, rfl⟩

/-- C3 witness: the general parts applied in the concrete scenario, at the
stub node `base-Unknown` the build actually contains. -/
theorem claim3_witness :
    (transformDataToGraph [] [stubScenarioClass] {} allFlags "").1.countP
        (fun n => n.id == "base-" ++ "Unknown") ≤ 1
  ∧ ((stubNode "Unknown" "base-Unknown").type = NodeType.class_ ∧
      (stubNode "Unknown" "base-Unknown").nodeData = stubNodeData "Unknown") :=
  ⟨claim3_stub_creation.2.1 [] [stubScenarioClass] {} allFlags "" "Unknown",
   claim3_stub_creation.2.2 [] [stubScenarioClass] {} allFlags "" "Unknown"
     (stubNode "Unknown" "base-Unknown") (by decide) (by decide)⟩

/-- Class-loop nodes of a build, read off by id prefix. -/
theorem build_class_filter (fns : List ParsedFunction) (cls : List ParsedClass)
    (rels : Relationships) (flags : Flags) (s : String) :
    (transformDataToGraph fns cls rels flags s).1.filter
        (fun n => strBegins n.id "class-") =
      (if flags.showClasses then classNodesFrom s 0 cls else []) := by
  obtain ⟨hI, dn, de, dm, heq, h1, h2, h3, h4, h5⟩ :=
    structuralState_spec fns cls flags s
  have hnodes : (transformDataToGraph fns cls rels flags s).1 =
      (structuralState fns cls flags s).nodes := (finalState_decomp fns cls rels flags s).1
  rw [hnodes, heq]
  dsimp only
  rw [List.filter_append]
  have hffil : ((if flags.showFunctions then funcNodesFrom s 0 fns else []).filter
      (fun n => strBegins n.id "class-")) = [] := by
    cases hf : flags.showFunctions with
    | true => simpa using funcNodesFrom_class_filter s 0 fns
    | false => simp
  rw [hffil, h1]
  simp

/-- `contains` edges of a build. -/
theorem build_contains_filter (fns : List ParsedFunction) (cls : List ParsedClass)
    (rels : Relationships) (flags : Flags) (s : String) :
    (transformDataToGraph fns cls rels flags s).2.filter
        (fun e => e.type == EdgeType.contains) =
      (if flags.showClasses then containsFrom flags.showMethods s 0 cls else []) := by
  obtain ⟨hI, dn, de, dm, heq, h1, h2, h3, h4, h5⟩ :=
    structuralState_spec fns cls flags s
  obtain ⟨-, -, dc, hedges, htypes, -, -⟩ := finalState_decomp fns cls rels flags s
  have he : (transformDataToGraph fns cls rels flags s).2 =
      (structuralState fns cls flags s).edges ++ dc := hedges
  rw [he, heq]
  dsimp only
  rw [List.filter_append, h2]
  have hdc : dc.filter (fun e => e.type == EdgeType.contains) = [] := by
    rw [List.filter_eq_nil_iff]
    intro e hec
    simp [htypes e hec]
  rw [hdc]
  simp

/-- C5: with `showRelationships=true` the edge list is the structural edges
followed by exactly the per-record outputs of the two relationship passes;
a `function_calls` record at index `i` yields an edge (necessarily
`callEdge i _ _`, carrying id `call-{i}`) iff its callee is truthy and
registered, its caller is truthy and registered, and the two resolved ids
differ; otherwise it is silently skipped.  Concretely, function_calls
`[{caller: "f", callee: "g"}]` over functions `f`, `g` yields exactly the
single `calls` edge `call-0 : func-0 -> func-1`. -/
theorem claim5_function_call_edges (fns : List ParsedFunction) (cls : List ParsedClass)
    (rels : Relationships) (sf sc sm : Bool) (s : String) :
    ((transformDataToGraph fns cls rels (Flags.mk sf sc sm true) s).2 =
        (structuralState fns cls (Flags.mk sf sc sm true) s).edges ++
        fcEdges (structuralState fns cls (Flags.mk sf sc sm true) s).nodeMap 0
          rels.function_calls ++
        mcEdges (structuralState fns cls (Flags.mk sf sc sm true) s).nodes
          (structuralState fns cls (Flags.mk sf sc sm true) s).nodeMap 0
          rels.method_calls)
  ∧ (∀ (i : Nat) (call : Relationship),
      (∃ e, fcEdge (structuralState fns cls (Flags.mk sf sc sm true) s).nodeMap i call
          = some e) ↔
        ∃ caller callee, call.caller = some caller ∧ call.callee = some callee ∧
          strEmpty callee = false ∧
          mapHas (structuralState fns cls (Flags.mk sf sc sm true) s).nodeMap callee = true ∧
          strEmpty caller = false ∧
          mapHas (structuralState fns cls (Flags.mk sf sc sm true) s).nodeMap caller = true ∧
          ¬ mapGet (structuralState fns cls (Flags.mk sf sc sm true) s).nodeMap caller =
              mapGet (structuralState fns cls (Flags.mk sf sc sm true) s).nodeMap callee)
  ∧ (∀ (i : Nat) (call : Relationship) (e : GraphEdge),
      fcEdge (structuralState fns cls (Flags.mk sf sc sm true) s).nodeMap i call = some e →
      ∃ crId ceId, e = callEdge i crId ceId)
  ∧ (transformDataToGraph [fxF, fxG] [] fxRels allFlags "").2 =
      [callEdge 0 (funcId 0) (funcId 1)] := by
  obtain ⟨-, -, dc, hedges, -, -, h6⟩ :=
    finalState_decomp fns cls rels (Flags.mk sf sc sm true) s
  refine ⟨?_, ?_, ?_, by decide⟩
  · rw [List.append_assoc]
    rw [← h6 rfl]
    exact hedges
  · intro i call
    exact fcEdge_some_iff
      (structuralState_spec fns cls (Flags.mk sf sc sm true) s).1.mapShape i call
  · intro i call e he
    obtain ⟨-, -, crId, ceId, -, -, -, rfl⟩ := fcEdge_cases he
    exact ⟨crId, ceId, rfl⟩

/-- C5 witness: the per-record characterization applied to the concrete
`f` calls `g` record: it yields exactly the edge `call-0`, and the iff's
right side is satisfied concretely. -/
theorem claim5_witness :
    (∃ crId ceId, callEdge 0 "func-0" "func-1" = callEdge 0 crId ceId)
  ∧ (∃ e, fcEdge (structuralState [fxF, fxG] [] allFlags "").nodeMap 0
      { caller := some "f", callee := some "g" } = some e) :=
  ⟨(claim5_function_call_edges [fxF, fxG] [] fxRels true true true "").2.2.1 0
      { caller := some "f", callee := some "g" } (callEdge 0 "func-0" "func-1") (by decide),
   ((claim5_function_call_edges [fxF, fxG] [] fxRels true true true "").2.1 0
      { caller := some "f", callee := some "g" }).mpr
     ⟨"f", "g", rfl, rfl, by decide, by decide, by decide, by decide, by decide⟩⟩

/-- C6: turning `showRelationships` off erases exactly the edges of the two
relationship passes: the `inherits` and `contains` edge lists are the same
with the flag on or off, and with the flag off no `calls` edge exists. -/
theorem claim6_relationships_flag (fns : List ParsedFunction) (cls : List ParsedClass)
    (rels : Relationships) (sf sc sm : Bool) (s : String) :
    ((transformDataToGraph fns cls rels (Flags.mk sf sc sm true) s).2.filter
        (fun e => e.type == EdgeType.inherits) =
      (transformDataToGraph fns cls rels (Flags.mk sf sc sm false) s).2.filter
        (fun e => e.type == EdgeType.inherits))
  ∧ ((transformDataToGraph fns cls rels (Flags.mk sf sc sm true) s).2.filter
        (fun e => e.type == EdgeType.contains) =
      (transformDataToGraph fns cls rels (Flags.mk sf sc sm false) s).2.filter
        (fun e => e.type == EdgeType.contains))
  ∧ ((transformDataToGraph fns cls rels (Flags.mk sf sc sm false) s).2.filter
        (fun e => e.type == EdgeType.calls) = []) := by
  obtain ⟨-, -, dcT, heT, htT, -, -⟩ :=
    finalState_decomp fns cls rels (Flags.mk sf sc sm true) s
  obtain ⟨-, -, dcF, heF, -, hF5, -⟩ :=
    finalState_decomp fns cls rels (Flags.mk sf sc sm false) s
  have hdcF : dcF = [] := hF5 rfl
  subst hdcF
  obtain ⟨-, dn, de, dm, heq, -, -, h3, -, -⟩ :=
    structuralState_spec fns cls (Flags.mk sf sc sm true) s
  have hstruct : structuralState fns cls (Flags.mk sf sc sm false) s =
      structuralState fns cls (Flags.mk sf sc sm true) s := rfl
  have heF' : (transformDataToGraph fns cls rels (Flags.mk sf sc sm false) s).2 =
      (structuralState fns cls (Flags.mk sf sc sm true) s).edges := by
    show (finalState fns cls rels (Flags.mk sf sc sm false) s).edges =
      (structuralState fns cls (Flags.mk sf sc sm true) s).edges
    rw [heF, hstruct, List.append_nil]
  have heT' : (transformDataToGraph fns cls rels (Flags.mk sf sc sm true) s).2 =
      (structuralState fns cls (Flags.mk sf sc sm true) s).edges ++ dcT := heT
  have hcallsT : dcT.filter (fun e => e.type == EdgeType.inherits) = [] := by
    rw [List.filter_eq_nil_iff]
    intro e hec
    simp [htT e hec]
  have hcontT : dcT.filter (fun e => e.type == EdgeType.contains) = [] := by
    rw [List.filter_eq_nil_iff]
    intro e hec
    simp [htT e hec]
  refine ⟨?_, ?_, ?_⟩
  · rw [heT', heF', List.filter_append, hcallsT, List.append_nil]
  · rw [heT', heF', List.filter_append, hcontT, List.append_nil]
  · rw [heF', heq]
    dsimp only
    rw [List.filter_eq_nil_iff]
    intro e hec
    rcases h3 e hec with h | h <;> simp [h]

/-- C7: with `showMethods=true` the number of `contains` edges is the sum,
over the visible (filter-passing) classes, of their filter-passing method
counts; with `showMethods=false` there are no method nodes and no
`contains` edges, while the class-loop nodes are the same as with
`showMethods=true`. -/
theorem claim7_contains_completeness (fns : List ParsedFunction) (cls : List ParsedClass)
    (rels : Relationships) (sf sc sr : Bool) (s : String) :
    (((transformDataToGraph fns cls rels (Flags.mk sf sc true sr) s).2.filter
        (fun e => e.type == EdgeType.contains)).length =
      ((visibleClasses sc s cls).map
        (fun c => (c.methods.filter (fun m => passesSearch s m.name)).length)).sum)
  ∧ ((transformDataToGraph fns cls rels (Flags.mk sf sc false sr) s).1.filter
        (fun n => n.type == NodeType.method) = [])
  ∧ ((transformDataToGraph fns cls rels (Flags.mk sf sc false sr) s).2.filter
        (fun e => e.type == EdgeType.contains) = [])
  ∧ ((transformDataToGraph fns cls rels (Flags.mk sf sc false sr) s).1.filter
        (fun n => strBegins n.id "class-") =
      (transformDataToGraph fns cls rels (Flags.mk sf sc true sr) s).1.filter
        (fun n => strBegins n.id "class-")) := by
  refine ⟨?_, ?_, ?_, ?_⟩
  · rw [build_contains_filter]
    dsimp only
    cases sc with
    | true => simp [visibleClasses, containsFrom_true_length]
    | false => simp [visibleClasses]
  · obtain ⟨-, dn, de, dm, heq, -, -, -, h4, -⟩ :=
      structuralState_spec fns cls (Flags.mk sf sc false sr) s
    have hnodes : (transformDataToGraph fns cls rels (Flags.mk sf sc false sr) s).1 =
        (structuralState fns cls (Flags.mk sf sc false sr) s).nodes :=
      (finalState_decomp fns cls rels (Flags.mk sf sc false sr) s).1
    rw [hnodes, heq]
    dsimp only
    rw [List.filter_eq_nil_iff]
    intro n hn
    rcases List.mem_append.mp hn with h | h
    · have hmem : n ∈ funcNodesFrom s 0 fns := by
        cases sf with
        | true => simpa using h
        | false => simp at h
      obtain ⟨k, f, rfl⟩ := funcNodesFrom_types s 0 fns n hmem
      simp [funcNode]
    · simpa using h4 rfl n h
  · rw [build_contains_filter]
    dsimp only
    cases sc with
    | true => simp [containsFrom_false]
    | false => simp
  · rw [build_class_filter, build_class_filter]

/-- C10: with `showClasses=false` the whole class branch is skipped: no
class-kind nodes, no method nodes, no `base-` stub nodes, no `contains`
edges and no `inherits` edges exist, whatever the other flags and the
classes' bases. -/
theorem claim10_classes_off (fns : List ParsedFunction) (cls : List ParsedClass)
    (rels : Relationships) (sf sm sr : Bool) (s : String) :
    ((transformDataToGraph fns cls rels (Flags.mk sf false sm sr) s).1.filter
        (fun n => n.type == NodeType.class_) = [])
  ∧ ((transformDataToGraph fns cls rels (Flags.mk sf false sm sr) s).1.filter
        (fun n => n.type == NodeType.method) = [])
  ∧ ((transformDataToGraph fns cls rels (Flags.mk sf false sm sr) s).1.filter
        (fun n => strBegins n.id "base-") = [])
  ∧ ((transformDataToGraph fns cls rels (Flags.mk sf false sm sr) s).2.filter
        (fun e => e.type == EdgeType.contains) = [])
  ∧ ((transformDataToGraph fns cls rels (Flags.mk sf false sm sr) s).2.filter
        (fun e => e.type == EdgeType.inherits) = []) := by
  obtain ⟨-, dn, de, dm, heq, -, -, -, -, h5⟩ :=
    structuralState_spec fns cls (Flags.mk sf false sm sr) s
  obtain ⟨hdn, hde⟩ := h5 rfl
  subst hdn hde
  have hnodes : (transformDataToGraph fns cls rels (Flags.mk sf false sm sr) s).1 =
      (if sf then funcNodesFrom s 0 fns else []) := by
    show (finalState fns cls rels (Flags.mk sf false sm sr) s).nodes =
      (if sf then funcNodesFrom s 0 fns else [])
    rw [(finalState_decomp fns cls rels (Flags.mk sf false sm sr) s).1, heq]
    simp
  obtain ⟨-, -, dc, hedges, htypes, -, -⟩ :=
    finalState_decomp fns cls rels (Flags.mk sf false sm sr) s
  have hedges' : (transformDataToGraph fns cls rels (Flags.mk sf false sm sr) s).2 = dc := by
    show (finalState fns cls rels (Flags.mk sf false sm sr) s).edges = dc
    rw [hedges, heq]
    simp
  have hfn : ∀ n ∈ (transformDataToGraph fns cls rels (Flags.mk sf false sm sr) s).1,
      ∃ k f, n = funcNode k f := by
    intro n hn
    rw [hnodes] at hn
    cases sf with
    | true => exact funcNodesFrom_types s 0 fns n (by simpa using hn)
    | false => simp at hn
  refine ⟨?_, ?_, ?_, ?_, ?_⟩
  · rw [List.filter_eq_nil_iff]
    intro n hn
    obtain ⟨k, f, rfl⟩ := hfn n hn
    simp [funcNode]
  · rw [List.filter_eq_nil_iff]
    intro n hn
    obtain ⟨k, f, rfl⟩ := hfn n hn
    simp [funcNode]
  · rw [List.filter_eq_nil_iff]
    intro n hn
    obtain ⟨k, f, rfl⟩ := hfn n hn
    simp [funcNode, strBegins_funcId_base]
  · rw [hedges', List.filter_eq_nil_iff]
    intro e hec
    simp [htypes e hec]
  · rw [hedges', List.filter_eq_nil_iff]
    intro e hec
    simp [htypes e hec]

/-- C2 witness: the amended classification applied to the concrete class
node of the `B extends A` build. -/
theorem claim2_witness :
    (∃ i c, ([cexClass] : List ParsedClass).get? i = some c ∧
        classNode 0 cexClass = classNode i c) ∨
    (∃ b, classNode 0 cexClass = stubNode b ("base-" ++ b)) :=
  (claim2_amended_search [] [cexClass] {} true true true "").2 (classNode 0 cexClass)
    (by decide) (by decide)
